import Mathlib

/-!
# RobotDrawing: text to pen-plotter G-code (`main.c`)

A shallow embedding of `main`, `loadFontData`, `processTextandCalculateWidth` and
`generateAndSendGCode`, followed by theorems about them.

Modelling conventions.

* C `int` is `Int`.  Signed overflow is undefined in C and is not modelled:
  every arithmetic result is taken to fit the machine word.
* `/` on C `int` truncates toward zero: `Int.tdiv`.
* The macros `MAX_TEXT_WIDTH`, `LINE_GAP`, `SPACE_GAP` are `double` literals.
  `LINE_GAP + textHeight` and the two comparisons against `MAX_TEXT_WIDTH`
  are exact on integers.  `SPACE_GAP * textHeight / FONT_UNIT_SIZE` is a
  `double` quotient converted to `int`: the product is exact, the quotient is
  correctly rounded, rounding is monotone and integers are representable, so
  the truncated quotient is the truncated integer quotient.
* A C array is a function on its indices; every access is guarded by the
  bound of the array, and an access outside it ends the run with
  `Outcome.undefinedBehaviour`.
* Automatic variables and arrays that the program never initialises take
  their first value from a parameter.
* The font file is the sequence of integers `fscanf` with `%d` converts; the
  text file is the sequence of bytes `fgetc` returns.
* `char` is signed (the program is written for a Windows PC: `Sleep`, COM
  port), so a byte `b > 127` stored in `char currentChar` reads as `b - 256`.
* `sendCommands` hands one line to the serial link; the link is the list of
  the lines handed over so far, oldest first.
-/

namespace RobotDrawing

/-! ## Constants -/

def MAX_CHARACTERS : Nat := 256
def FONT_UNIT_SIZE : Int := 18
def MAX_TEXT_WIDTH : Int := 100
def LINE_GAP : Int := 5
def SPACE_GAP : Int := 10

/-- The capacity of `strokes[100]` in `struct CharacterData`. -/
def MAX_STROKES : Nat := 100

/-- The value of `EOF` in `stdio.h`. -/
def EOF : Int := -1

/-! ## Data model -/

/-- The `struct Stroke`. -/
structure Stroke where
  x : Int
  y : Int
  pen_down : Int
deriving DecidableEq, Repr

/-- The `struct CharacterData`; `strokes` is the array `strokes[100]`. -/
structure CharacterData where
  ascii_char : Int
  stroke_count : Int
  strokes : Nat → Stroke
  char_width : Int

/-- The array `struct CharacterData fontData[MAX_CHARACTERS]`. -/
abbrev FontData := Nat → CharacterData

/-- How a run of a C function ends. -/
inductive Outcome (α : Type) where
  | ok : α → Outcome α
  | undefinedBehaviour : Outcome α
  | outOfFuel : Outcome α
deriving DecidableEq, Repr

/-- The arguments of one call of `generateAndSendGCode`. -/
structure MotionPoint where
  x : Int
  y : Int
  pen_down : Int
deriving DecidableEq, Repr

/-! ## Motion emitter -/

/-- The conversion `%d` of `sprintf`. -/
def fmtInt (n : Int) : String := toString n

/-- The text of `sprintf(gcodeBuffer, "S%d\n", pen_down ? 1000 : 0)`. -/
def penCommand (pen_down : Int) : String :=
  "S" ++ fmtInt (if pen_down ≠ 0 then 1000 else 0) ++ "\n"

/-- The text of `sprintf(gcodeBuffer, "G%d X%d Y%d\n", pen_down ? 1 : 0, x, y)`. -/
def moveCommand (x y pen_down : Int) : String :=
  "G" ++ fmtInt (if pen_down ≠ 0 then 1 else 0) ++ " X" ++ fmtInt x ++ " Y" ++ fmtInt y ++ "\n"

/-- The call `sendCommands(buffer)` of `generateAndSendGCode`: the line is handed
to the serial link. (`main.c` defines `SendCommands`, which prints the buffer
and waits for the reply; the transport is outside the model.) -/
def sendCommands (buffer : String) (link : List String) : List String :=
  link ++ [buffer]

/-- The variables the layout loop works on: `*current_x`, `*current_y`,
`*prev_pen_state`, the local `accumulated_width`, the serial link, and `calls`,
the arguments of the calls of `generateAndSendGCode` made so far. -/
structure Plotter where
  current_x : Int
  current_y : Int
  prev_pen_state : Int
  accumulated_width : Int
  calls : List MotionPoint
  link : List String
deriving DecidableEq

/-- The function `generateAndSendGCode(x, y, pen_down, previous_pen_state)`. -/
def generateAndSendGCode (x y pen_down : Int) (s : Plotter) : Plotter :=
  let s1 : Plotter :=
    if pen_down ≠ s.prev_pen_state then
      { s with link := sendCommands (penCommand pen_down) s.link, prev_pen_state := pen_down }
    else s
  { s1 with link := sendCommands (moveCommand x y pen_down) s1.link,
            calls := s1.calls ++ [⟨x, y, pen_down⟩] }

/-! ## Layout engine -/

/-- The loop `for (int i = 0; i < character.stroke_count; ++i)` of
`processTextandCalculateWidth`, entered at index `i` with `n` iterations left. -/
def strokeLoop (character : CharacterData) (textHeight : Int) :
    Nat → Nat → Plotter → Outcome Plotter
  | 0, _, s => Outcome.ok s
  | n + 1, i, s =>
    if i < MAX_STROKES then
      let x := Int.tdiv ((character.strokes i).x * textHeight) FONT_UNIT_SIZE
      let y := Int.tdiv ((character.strokes i).y * textHeight) FONT_UNIT_SIZE
      let pen := (character.strokes i).pen_down
      strokeLoop character textHeight n (i + 1)
        (generateAndSendGCode (x + s.current_x) (y + s.current_y) pen s)
    else Outcome.undefinedBehaviour

/-- The wrap performed in three places: `*current_x = 0; *current_y -= LINE_GAP +
textHeight; accumulated_width = 0;`. -/
def newLine (textHeight : Int) (s : Plotter) : Plotter :=
  { s with current_x := 0, current_y := s.current_y - (LINE_GAP + textHeight),
           accumulated_width := 0 }

/-- The last branch of the loop body: a character that is not `\n`, `\r` or a
space. -/
def drawCharacter (fontData : FontData) (textHeight : Int) (currentChar : Int)
    (s : Plotter) : Outcome Plotter :=
  let ascii_value := currentChar
  if 0 ≤ ascii_value ∧ ascii_value < MAX_CHARACTERS then
    let character := fontData ascii_value.toNat
    if character.stroke_count = 0 then Outcome.ok s
    else
      let char_width := Int.tdiv (character.char_width * textHeight) FONT_UNIT_SIZE
      let s1 := if s.accumulated_width + char_width > MAX_TEXT_WIDTH then newLine textHeight s else s
      match strokeLoop character textHeight character.stroke_count.toNat 0 s1 with
      | Outcome.ok s2 =>
        Outcome.ok { s2 with accumulated_width := s2.accumulated_width + char_width,
                             current_x := s2.current_x + char_width }
      | Outcome.undefinedBehaviour => Outcome.undefinedBehaviour
      | Outcome.outOfFuel => Outcome.outOfFuel
  else Outcome.undefinedBehaviour

/-- The branch of the loop body for a space. -/
def spaceCharacter (textHeight : Int) (s : Plotter) : Plotter :=
  let space_width := Int.tdiv (SPACE_GAP * textHeight) FONT_UNIT_SIZE
  let s1 := { s with accumulated_width := s.accumulated_width + space_width,
                     current_x := s.current_x + space_width }
  if s1.accumulated_width > MAX_TEXT_WIDTH then newLine textHeight s1 else s1

/-- The body of the `while` loop of `processTextandCalculateWidth` for one
value of `currentChar`. -/
def processChar (fontData : FontData) (textHeight : Int) (currentChar : Int)
    (s : Plotter) : Outcome Plotter :=
  if currentChar = 10 then Outcome.ok (newLine textHeight s)
  else if currentChar = 13 then Outcome.ok s
  else if currentChar = 32 then Outcome.ok (spaceCharacter textHeight s)
  else drawCharacter fontData textHeight currentChar s

/-- The assignment `currentChar = fgetc(textFile)` for a byte of the file: the
byte converted to `char`. -/
def toChar (b : Fin 256) : Int :=
  if b.val < 128 then (b.val : Int) else (b.val : Int) - 256

/-- The loop `while ((currentChar = fgetc(textFile)) != EOF)`: at the end of the
file `fgetc` returns `EOF`; a byte whose `char` value equals `EOF` ends the
loop as well. -/
def processLoop (fontData : FontData) (textHeight : Int) :
    List (Fin 256) → Plotter → Outcome Plotter
  | [], s => Outcome.ok s
  | b :: rest, s =>
    if toChar b = EOF then Outcome.ok s
    else
      match processChar fontData textHeight (toChar b) s with
      | Outcome.ok s1 => processLoop fontData textHeight rest s1
      | Outcome.undefinedBehaviour => Outcome.undefinedBehaviour
      | Outcome.outOfFuel => Outcome.outOfFuel

/-- The function `processTextandCalculateWidth`: `accumulated_width` starts at 0;
the caller supplies the cursor, the pen state and the serial link. -/
def processTextandCalculateWidth (textFile : List (Fin 256)) (fontData : FontData)
    (textHeight : Int) (current_x current_y prev_pen_state : Int) (link : List String) :
    Outcome Plotter :=
  processLoop fontData textHeight textFile
    { current_x := current_x, current_y := current_y, prev_pen_state := prev_pen_state,
      accumulated_width := 0, calls := [], link := link }

/-! ## Font catalog -/

/-- The variables of `loadFontData`: the unread integers of `fontFile`, the
locals, and the array `fontData`. -/
structure Loader where
  input : List Int
  ascii_code : Int
  stroke_count : Int
  x : Int
  y : Int
  pen_down : Int
  index : Nat
  fontData : FontData

/-- The values the locals `ascii_code`, `stroke_count`, `x`, `y`, `pen_down` of
`loadFontData` hold before anything is assigned to them. -/
structure Indeterminate where
  ascii_code : Int
  stroke_count : Int
  x : Int
  y : Int
  pen_down : Int

/-- One conversion `%d` of `fscanf`: the next integer of the file, or, at the end
of the file, the variable keeps the value `old`. -/
def scanInt (input : List Int) (old : Int) : Int × List Int :=
  match input with
  | [] => (old, [])
  | t :: rest => (t, rest)

/-- The assignment `fontData[index].strokes[i] = (struct Stroke){x, y, pen_down}`. -/
def storeStroke (fontData : FontData) (index i : Nat) (st : Stroke) : FontData :=
  Function.update fontData index
    { fontData index with strokes := Function.update (fontData index).strokes i st }

/-- The loop `for (int i = 0; i < stroke_count; ++i)` of `loadFontData`, entered
at index `i` with `n` iterations left. -/
def readStrokes : Nat → Nat → Loader → Outcome Loader
  | 0, _, s => Outcome.ok s
  | n + 1, i, s =>
    let rx := scanInt s.input s.x
    let ry := scanInt rx.2 s.y
    let rp := scanInt ry.2 s.pen_down
    if s.index < MAX_CHARACTERS ∧ i < MAX_STROKES then
      readStrokes n (i + 1)
        { s with input := rp.2, x := rx.1, y := ry.1, pen_down := rp.1,
                 fontData := storeStroke s.fontData s.index i ⟨rx.1, ry.1, rp.1⟩ }
    else Outcome.undefinedBehaviour

/-- The body of `if (ascii_code == 999)`: one record is read into
`fontData[index]` and `index` is incremented. -/
def readRecord (s : Loader) : Outcome Loader :=
  let rc := scanInt s.input s.ascii_code
  let rn := scanInt rc.2 s.stroke_count
  if s.index < MAX_CHARACTERS then
    let fd1 := Function.update s.fontData s.index
      { s.fontData s.index with ascii_char := rc.1, stroke_count := rn.1 }
    match readStrokes rn.1.toNat 0
        { s with input := rn.2, ascii_code := rc.1, stroke_count := rn.1, fontData := fd1 } with
    | Outcome.ok s2 =>
      if 0 ≤ s2.stroke_count - 1 ∧ s2.stroke_count - 1 < MAX_STROKES then
        Outcome.ok
          { s2 with
            fontData := Function.update s2.fontData s2.index
              { s2.fontData s2.index with
                char_width := ((s2.fontData s2.index).strokes (s2.stroke_count - 1).toNat).x },
            index := s2.index + 1 }
      else Outcome.undefinedBehaviour
    | Outcome.undefinedBehaviour => Outcome.undefinedBehaviour
    | Outcome.outOfFuel => Outcome.outOfFuel
  else Outcome.undefinedBehaviour

/-- The loop `while (fscanf(fontFile, "%d", &ascii_code) != EOF)`, run for at most
`fuel` iterations. -/
def loadLoop : Nat → Loader → Outcome Loader
  | 0, _ => Outcome.outOfFuel
  | fuel + 1, s =>
    match s.input with
    | [] => Outcome.ok s
    | t :: rest =>
      if t = 999 then
        match readRecord { s with input := rest, ascii_code := t } with
        | Outcome.ok s1 => loadLoop fuel s1
        | Outcome.undefinedBehaviour => Outcome.undefinedBehaviour
        | Outcome.outOfFuel => Outcome.outOfFuel
      else loadLoop fuel { s with input := rest, ascii_code := t }

/-- The function `loadFontData(fontFile, fontData)`: the returned `int` and the
array as the function leaves it.  Every iteration of the `while` loop consumes
an integer of the file, so one more iteration than the file has integers is
enough. -/
def loadFontData (fontFile : List Int) (fontData : FontData) (junk : Indeterminate) :
    Outcome (Int × FontData) :=
  match loadLoop (fontFile.length + 1)
      { input := fontFile, ascii_code := junk.ascii_code, stroke_count := junk.stroke_count,
        x := junk.x, y := junk.y, pen_down := junk.pen_down, index := 0,
        fontData := fontData } with
  | Outcome.ok s => Outcome.ok (0, s.fontData)
  | Outcome.undefinedBehaviour => Outcome.undefinedBehaviour
  | Outcome.outOfFuel => Outcome.outOfFuel

/-! ## Compositions -/

/-- The calls `generateAndSendGCode(p.x, p.y, p.pen_down, ...)` for the motion
points of a sequence, in order. -/
def emitAll (points : List MotionPoint) (s : Plotter) : Plotter :=
  points.foldl (fun acc p => generateAndSendGCode p.x p.y p.pen_down acc) s

/-- The statements of `main` from the call of `loadFontData` to the call of
`processTextandCalculateWidth`, for a height that passed the range check:
the return value of `loadFontData` is discarded, the cursor is `(0, 0)`, the pen
state is 0. -/
def loadAndProcess (fontFile : List Int) (fontData : FontData) (junk : Indeterminate)
    (textFile : List (Fin 256)) (textHeight : Int) (link : List String) : Outcome Plotter :=
  match loadFontData fontFile fontData junk with
  | Outcome.ok r => processTextandCalculateWidth textFile r.2 textHeight 0 0 0 link
  | Outcome.undefinedBehaviour => Outcome.undefinedBehaviour
  | Outcome.outOfFuel => Outcome.outOfFuel

/-! ## Notions used in the statements -/

/-- The motion point the stroke loop passes to `generateAndSendGCode` for stroke
`i` of `character` while the cursor is at `(cx, cy)`. -/
def strokePoint (character : CharacterData) (textHeight cx cy : Int) (i : Nat) : MotionPoint :=
  ⟨Int.tdiv ((character.strokes i).x * textHeight) FONT_UNIT_SIZE + cx,
   Int.tdiv ((character.strokes i).y * textHeight) FONT_UNIT_SIZE + cy,
   (character.strokes i).pen_down⟩

/-- The characters the loop body passes over with `continue`: the carriage
return, and a character that reaches the catalog lookup (it is not a newline or
a space and its `char` value is not negative) and whose entry has
`stroke_count == 0`. -/
def skipped (fontData : FontData) (b : Fin 256) : Bool :=
  decide (toChar b = 13)
    || (decide (toChar b ≠ 10) && decide (toChar b ≠ 32) && decide (0 ≤ toChar b)
          && decide ((fontData (toChar b).toNat).stroke_count = 0))

/-- The characters to delete in the words of the specification: every carriage
return and every character whose catalog entry has zero strokes. -/
def crOrZeroStrokes (fontData : FontData) (b : Fin 256) : Bool :=
  decide (b.val = 13) || decide ((fontData b.val).stroke_count = 0)

/-- A motion point moved by `dy` along y. -/
def shiftY (dy : Int) (q : MotionPoint) : MotionPoint := ⟨q.x, q.y + dy, q.pen_down⟩

/-- The state `b` is the state `a` moved by `dy` along y, with the motion points
`cs` recorded before those of `a`; the pen state and the lines are not compared. -/
def Shifted (dy : Int) (cs : List MotionPoint) (a b : Plotter) : Prop :=
  b.current_x = a.current_x ∧ b.current_y = a.current_y + dy
    ∧ b.accumulated_width = a.accumulated_width
    ∧ b.calls = cs ++ a.calls.map (shiftY dy)

/-- The cursor at which the strokes of the glyph of `c` are drawn from state `s`
(lines 201 to 209): the start of the next line when the scaled width does not
fit the line budget, the cursor of `s` otherwise. -/
def drawOrigin (fontData : FontData) (textHeight c : Int) (s : Plotter) : Int × Int :=
  if s.accumulated_width
      + Int.tdiv ((fontData c.toNat).char_width * textHeight) FONT_UNIT_SIZE > MAX_TEXT_WIDTH
  then (0, s.current_y - (LINE_GAP + textHeight))
  else (s.current_x, s.current_y)

/-! ## Concrete data used in the examples -/

/-- The glyph of the end-to-end example: strokes (0,0,up), (10,20,down), (10,0,up),
width 10. -/
def glyphA : CharacterData :=
  ⟨65, 3, fun i => if i = 0 then ⟨0, 0, 0⟩ else if i = 1 then ⟨10, 20, 1⟩
                   else if i = 2 then ⟨10, 0, 0⟩ else ⟨0, 0, 0⟩, 10⟩

/-- A catalog whose only glyph with strokes is `glyphA`, at index 65. -/
def fontDataA : FontData := fun c => if c = 65 then glyphA else ⟨0, 0, fun _ => ⟨0, 0, 0⟩, 0⟩

/-- A catalog with one glyph at index 66 whose first stroke has negative
coordinates: strokes (-7,-25,down), (9,0,up), width 9. -/
def fontDataNeg : FontData := fun c =>
  if c = 66 then ⟨66, 2, fun i => if i = 0 then ⟨-7, -25, 1⟩ else if i = 1 then ⟨9, 0, 0⟩
                                  else ⟨0, 0, 0⟩, 9⟩
  else ⟨0, 0, fun _ => ⟨0, 0, 0⟩, 0⟩

/-- The font file holding the single record of the end-to-end example. -/
def fontFileA : List Int := [999, 65, 3, 0, 0, 0, 10, 20, 1, 10, 0, 0]

/-- An array in which every entry is zero. -/
def zeroFontData : FontData := fun _ => ⟨0, 0, fun _ => ⟨0, 0, 0⟩, 0⟩

/-- Locals that happen to hold zero. -/
def zeroJunk : Indeterminate := ⟨0, 0, 0, 0, 0⟩

/-! ## The program -/

/-- The value of `EXIT_FAILURE` in `stdlib.h`. -/
def EXIT_FAILURE : Int := 1

/-- Modelled from the spec: `PrintBuffer` is declared in `serial.h`, which is not
among the sources; as the transport's `transmit`, it hands the line to the
serial link. -/
def PrintBuffer (buffer : String) (link : List String) : List String :=
  link ++ [buffer]

/-- The function `SendCommands(buffer)` of `main.c`: `PrintBuffer`, then the wait
for the reply and the pause, which leave the link as it is. -/
def SendCommands (buffer : String) (link : List String) : List String :=
  PrintBuffer buffer link

/-- The lines `main` sends before it opens the font file: the wake-up newline and
the three commands that put the robot in drawing mode. -/
def setupLines : List String :=
  SendCommands "S0\n" (SendCommands "M3\n" (SendCommands "G1 X0 Y0 F1000\n" (PrintBuffer "\n" [])))

/-- How `main` ends: the exit status, the lines sent over the link, and the state
`processTextandCalculateWidth` left when it was called. -/
structure Exit where
  status : Int
  link : List String
  layout : Option Plotter
deriving DecidableEq

/-- The function `main`. `port` says whether `CanRS232PortBeOpened()` succeeded,
`fontFile` and `textFile` are the contents of the files when `fopen` succeeded,
`textHeight` is the value of the variable after `scanf`, `fontData` and `junk` are
what the uninitialised array and locals hold. -/
def main (port : Bool) (fontFile : Option (List Int)) (fontData : FontData)
    (junk : Indeterminate) (textFile : Option (List (Fin 256))) (textHeight : Int) :
    Outcome Exit :=
  if port = false then Outcome.ok ⟨0, [], none⟩
  else
    match fontFile with
    | none => Outcome.ok ⟨EXIT_FAILURE, setupLines, none⟩
    | some font =>
      match loadFontData font fontData junk with
      | Outcome.ok loaded =>
        match textFile with
        | none => Outcome.ok ⟨EXIT_FAILURE, setupLines, none⟩
        | some text =>
          if textHeight < 4 ∨ textHeight > 10 then Outcome.ok ⟨EXIT_FAILURE, setupLines, none⟩
          else
            match processTextandCalculateWidth text loaded.2 textHeight 0 0 0 setupLines with
            | Outcome.ok p => Outcome.ok ⟨0, p.link, some p⟩
            | Outcome.undefinedBehaviour => Outcome.undefinedBehaviour
            | Outcome.outOfFuel => Outcome.outOfFuel
      | Outcome.undefinedBehaviour => Outcome.undefinedBehaviour
      | Outcome.outOfFuel => Outcome.outOfFuel

/-! ## Font files made of records -/

/-- A record of the font file: the character code and the strokes; the declared
stroke count is the number of strokes. -/
structure FontRecord where
  code : Int
  strokes : List Stroke

/-- The three integers of a stroke in the font file. -/
def strokeInts (st : Stroke) : List Int := [st.x, st.y, st.pen_down]

/-- The integers of a well-formed record: the sentinel 999, the code, the stroke
count, then one triple per stroke. -/
def recordInts (r : FontRecord) : List Int :=
  999 :: r.code :: (r.strokes.length : Int) :: r.strokes.flatMap strokeInts

/-- A font file made of well-formed records, each preceded by the integers
`noise`, and followed by the integers `trailing`. -/
def withNoise : List (List Int × FontRecord) → List Int → List Int
  | [], trailing => trailing
  | (noise, r) :: rest, trailing => noise ++ recordInts r ++ withNoise rest trailing

/-- The array `strokes` after the strokes of a list are written to the slots
`i`, `i + 1`, ... in turn. -/
def writeStrokes (old : Nat → Stroke) (i : Nat) : List Stroke → (Nat → Stroke)
  | [] => old
  | st :: rest => writeStrokes (Function.update old i st) (i + 1) rest

/-- The array `fontData` after the record `r` is written to entry `index`: code,
stroke count, the strokes from slot 0 on, and the width read back from the slot
of the last stroke. -/
def storeRecord (r : FontRecord) (index : Nat) (fontData : FontData) : FontData :=
  Function.update fontData index
    ⟨r.code, (r.strokes.length : Int), writeStrokes (fontData index).strokes 0 r.strokes,
     (writeStrokes (fontData index).strokes 0 r.strokes (r.strokes.length - 1)).x⟩

/-- The array `fontData` after the records of a list are written to the entries
`index`, `index + 1`, ... in turn; a record with no stroke or more than 100
strokes, or an entry beyond 255, is an access outside an array. -/
def storeRecords : List FontRecord → Nat → FontData → Outcome FontData
  | [], _, fontData => Outcome.ok fontData
  | r :: rest, index, fontData =>
    if index < MAX_CHARACTERS ∧ 1 ≤ r.strokes.length ∧ r.strokes.length ≤ MAX_STROKES then
      storeRecords rest (index + 1) (storeRecord r index fontData)
    else Outcome.undefinedBehaviour

/-- The return value 0 of `loadFontData` paired with the array it leaves. -/
def returned : Outcome FontData → Outcome (Int × FontData)
  | Outcome.ok fontData => Outcome.ok (0, fontData)
  | Outcome.undefinedBehaviour => Outcome.undefinedBehaviour
  | Outcome.outOfFuel => Outcome.outOfFuel

/-- The loop of `loadFontData` with one more iteration than integers left, and
the array it leaves. -/
def loadFrom (s : Loader) : Outcome FontData :=
  match loadLoop (s.input.length + 1) s with
  | Outcome.ok s2 => Outcome.ok s2.fontData
  | Outcome.undefinedBehaviour => Outcome.undefinedBehaviour
  | Outcome.outOfFuel => Outcome.outOfFuel

/-! ## Notions used in the statements about whole texts -/

/-- Every byte of the text is below 128, so that it reads as itself in `char`. -/
def sevenBit (text : List (Fin 256)) : Prop := ∀ b ∈ text, b.val < 128

/-- Every entry a character 0..127 selects has a stroke count that the array
`strokes[100]` can hold. -/
def countsInRange (fontData : FontData) : Prop :=
  ∀ c : Nat, c < 128 → 0 ≤ (fontData c).stroke_count ∧ (fontData c).stroke_count ≤ 100

/-- The characters of the text that are not newline, carriage return or space. -/
def glyphBytes (text : List (Fin 256)) : List (Fin 256) :=
  text.filter (fun b => decide (b.val ≠ 10 ∧ b.val ≠ 13 ∧ b.val ≠ 32))

/-- The pen values of the strokes of a catalog entry, in stroke order. -/
def glyphPens (character : CharacterData) : List Int :=
  (List.range character.stroke_count.toNat).map (fun i => (character.strokes i).pen_down)

/-- The number of motion points in the words of the specification: the sum, over
the characters of the text that are not newline, carriage return or space, of
the stroke count of the character's catalog entry. -/
def claimedPointCount (fontData : FontData) (text : List (Fin 256)) : Int :=
  ((glyphBytes text).map (fun b => (fontData b.val).stroke_count)).sum

/-- The pen values of the motion points in the words of the specification: those of
the strokes of the glyphs of the text, in text order. -/
def claimedPens (fontData : FontData) (text : List (Fin 256)) : List Int :=
  (glyphBytes text).flatMap (fun b => glyphPens (fontData b.val))

/-- The hypothesis of the line budget on a catalog entry: when the entry has strokes (`stroke_count` is not 0), every
stroke has `0 <= x <= width` and the scaled width is at most 100. -/
def fitsLine (character : CharacterData) (h : Int) : Prop :=
  character.stroke_count ≠ 0 →
    (∀ i : Nat, (i : Int) < character.stroke_count →
        0 ≤ (character.strokes i).x ∧ (character.strokes i).x ≤ character.char_width)
    ∧ Int.tdiv (character.char_width * h) 18 ≤ 100

/-- The line budget invariant of a state: the cursor x is the accumulated width,
it lies in 0..100, and so does the x of every motion point emitted so far. -/
def withinLine (s : Plotter) : Prop :=
  s.current_x = s.accumulated_width ∧ 0 ≤ s.current_x ∧ s.current_x ≤ 100
    ∧ ∀ p ∈ s.calls, 0 ≤ p.x ∧ p.x ≤ 100

/-- A catalog whose entry 65 has the stroke count -1 and the width -180. -/
def fontDataMinus : FontData := fun c =>
  if c = 65 then ⟨65, -1, fun _ => ⟨0, 0, 0⟩, -180⟩ else ⟨0, 0, fun _ => ⟨0, 0, 0⟩, 0⟩

/-- A catalog whose entry 65 has the stroke count 101. -/
def fontData101 : FontData := fun c =>
  if c = 65 then ⟨65, 101, fun _ => ⟨0, 0, 0⟩, 0⟩ else ⟨0, 0, fun _ => ⟨0, 0, 0⟩, 0⟩

/-! ## Notions used in the statements about the command stream -/

/-- The first two characters of a line. -/
def head2 (l : String) : List Char := l.data.take 2

/-- The line is a pen command: `S1000` or `S0`. -/
def isPenLine (l : String) : Bool := decide (l = "S1000\n") || decide (l = "S0\n")

/-- The line is a pen-down move: it starts with `G1`. -/
def isMoveDown (l : String) : Bool := decide (head2 l = ['G', '1'])

/-- The line is a pen-up move: it starts with `G0`. -/
def isMoveUp (l : String) : Bool := decide (head2 l = ['G', '0'])

/-- The check of a command stream, line by line, after a point where the most
recent pen command is `pen` and the last line is `prev`: a `G1` move needs the
most recent pen command to be `S1000`, a `G0` move needs it to be `S0`, and a pen
command must differ from the line just before it. -/
def consistent (pen prev : String) : List String → Bool
  | [] => true
  | l :: rest =>
    (!isMoveDown l || decide (pen = "S1000\n")) && (!isMoveUp l || decide (pen = "S0\n"))
      && (!isPenLine l || decide (prev ≠ l))
      && consistent (if isPenLine l then l else pen) l rest

/-- The most recent pen command and the last line after the lines of a list. -/
def track (st : String × String) (lines : List String) : String × String :=
  lines.foldl (fun acc l => (if isPenLine l then l else acc.1, l)) st

/-- The state of the emitter agrees with the stream sent after the setup lines:
the stream passes the check, the most recent pen command is the one of the
last transmitted pen state, and when the last line is a pen command it is the
`S0` of the setup. -/
def Coherent (s : Plotter) : Prop :=
  ∃ tail : List String, s.link = setupLines ++ tail
    ∧ consistent "S0\n" "S0\n" tail = true
    ∧ (track ("S0\n", "S0\n") tail).1 = penCommand s.prev_pen_state
    ∧ (isPenLine (track ("S0\n", "S0\n") tail).2 = true →
        s.prev_pen_state = 0 ∧ (track ("S0\n", "S0\n") tail).2 = "S0\n")

/-! ## The motion emitter -/

theorem penCommand_eq (pen_down : Int) :
    penCommand pen_down = if pen_down ≠ 0 then "S1000\n" else "S0\n" := by
  unfold penCommand
  split_ifs <;> rfl

theorem moveCommand_eq (x y pen_down : Int) :
    moveCommand x y pen_down =
      (if pen_down ≠ 0 then "G1" else "G0") ++ " X" ++ toString x ++ " Y" ++ toString y ++ "\n" := by
  unfold moveCommand fmtInt
  split_ifs <;> rfl

/-- What one call of `generateAndSendGCode` leaves untouched and what it records. -/
theorem generateAndSendGCode_frame (x y pen_down : Int) (s : Plotter) :
    (generateAndSendGCode x y pen_down s).calls = s.calls ++ [⟨x, y, pen_down⟩]
    ∧ (generateAndSendGCode x y pen_down s).current_x = s.current_x
    ∧ (generateAndSendGCode x y pen_down s).current_y = s.current_y
    ∧ (generateAndSendGCode x y pen_down s).accumulated_width = s.accumulated_width := by
  unfold generateAndSendGCode sendCommands
  by_cases h : pen_down = s.prev_pen_state
  · simp [h]
  · simp [h]

/-- C6: one call of `generateAndSendGCode` hands to the link, when the pen value
differs from the last transmitted one, the line `S1000` (pen down, non-zero) or
`S0` (pen up), and then in every case one line `G1 X<x> Y<y>` (pen down) or
`G0 X<x> Y<y>` (pen up), each ended by a newline; the last transmitted pen
state becomes the pen value when it differed and is unchanged otherwise; the
cursor and the line width are not touched. -/
theorem C6_generateAndSendGCode_lines (x y pen_down : Int) (s : Plotter) :
    (generateAndSendGCode x y pen_down s).link =
        s.link
          ++ (if pen_down ≠ s.prev_pen_state then
                [if pen_down ≠ 0 then "S1000\n" else "S0\n"] else [])
          ++ [(if pen_down ≠ 0 then "G1" else "G0") ++ " X" ++ toString x
                ++ " Y" ++ toString y ++ "\n"]
    ∧ (generateAndSendGCode x y pen_down s).prev_pen_state =
        (if pen_down ≠ s.prev_pen_state then pen_down else s.prev_pen_state)
    ∧ (generateAndSendGCode x y pen_down s).calls = s.calls ++ [⟨x, y, pen_down⟩]
    ∧ (generateAndSendGCode x y pen_down s).current_x = s.current_x
    ∧ (generateAndSendGCode x y pen_down s).current_y = s.current_y
    ∧ (generateAndSendGCode x y pen_down s).accumulated_width = s.accumulated_width := by
  unfold generateAndSendGCode sendCommands
  rw [← penCommand_eq, ← moveCommand_eq]
  by_cases h : pen_down = s.prev_pen_state
  · simp [h]
  · simp [h]

theorem emitAll_nil (s : Plotter) : emitAll [] s = s := rfl

theorem emitAll_cons (p : MotionPoint) (ps : List MotionPoint) (s : Plotter) :
    emitAll (p :: ps) s = emitAll ps (generateAndSendGCode p.x p.y p.pen_down s) := rfl

theorem emitAll_append (ps qs : List MotionPoint) (s : Plotter) :
    emitAll (ps ++ qs) s = emitAll qs (emitAll ps s) := by
  simp [emitAll, List.foldl_append]

theorem emitAll_frame (ps : List MotionPoint) (s : Plotter) :
    (emitAll ps s).current_x = s.current_x ∧ (emitAll ps s).current_y = s.current_y
      ∧ (emitAll ps s).accumulated_width = s.accumulated_width
      ∧ (emitAll ps s).calls = s.calls ++ ps := by
  induction ps generalizing s with
  | nil => simp [emitAll_nil]
  | cons p ps ih =>
    rw [emitAll_cons]
    obtain ⟨h1, h2, h3, h4⟩ := ih (generateAndSendGCode p.x p.y p.pen_down s)
    obtain ⟨g3, g4, g5, g6⟩ := generateAndSendGCode_frame p.x p.y p.pen_down s
    refine ⟨by rw [h1, g4], by rw [h2, g5], by rw [h3, g6], ?_⟩
    rw [h4, g3]
    simp

/-- A run of points whose pen value is the last transmitted one: moves only. -/
theorem emitAll_same_pen (ps : List MotionPoint) (s : Plotter)
    (h : ∀ q ∈ ps, q.pen_down = s.prev_pen_state) :
    (emitAll ps s).link
        = s.link ++ ps.map (fun q => moveCommand q.x q.y s.prev_pen_state)
      ∧ (emitAll ps s).prev_pen_state = s.prev_pen_state := by
  induction ps generalizing s with
  | nil => simp [emitAll_nil]
  | cons p ps ih =>
    have hp : p.pen_down = s.prev_pen_state := h p (List.mem_cons_self _ _)
    have hstep : (generateAndSendGCode p.x p.y p.pen_down s).prev_pen_state = s.prev_pen_state := by
      simp [generateAndSendGCode, hp]
    have hlink : (generateAndSendGCode p.x p.y p.pen_down s).link
        = s.link ++ [moveCommand p.x p.y s.prev_pen_state] := by
      simp [generateAndSendGCode, sendCommands, hp]
    rw [emitAll_cons]
    obtain ⟨i1, i2⟩ := ih (generateAndSendGCode p.x p.y p.pen_down s) (by
      intro q hq
      rw [hstep]
      exact h q (List.mem_cons_of_mem _ hq))
    rw [i1, i2, hstep, hlink]
    simp

/-- C5: a run of `N >= 1` consecutive motion points that all carry the pen value
`p`, emitted when the last transmitted pen state is not `p`, adds to the link
exactly one pen line (`S1000` when `p` is down, `S0` when it is up) followed by
exactly `N` move lines, one per point in order (`G1 ...` when down, `G0 ...`
when up), and nothing else; afterwards the last transmitted pen state is `p`. -/
theorem C5_pen_coalescing (N : Nat) (p : Int) (run : List MotionPoint) (s : Plotter)
    (hN : 1 ≤ N) (hlen : run.length = N)
    (hrun : ∀ q ∈ run, q.pen_down = p) (hprev : s.prev_pen_state ≠ p) :
    (emitAll run s).link =
        s.link ++ [if p ≠ 0 then "S1000\n" else "S0\n"]
          ++ run.map (fun q => (if p ≠ 0 then "G1" else "G0") ++ " X" ++ toString q.x
                ++ " Y" ++ toString q.y ++ "\n")
      ∧ (run.map (fun q => (if p ≠ 0 then "G1" else "G0") ++ " X" ++ toString q.x
                ++ " Y" ++ toString q.y ++ "\n")).length = N
      ∧ (emitAll run s).prev_pen_state = p := by
  cases run with
  | nil => simp at hlen; omega
  | cons q qs =>
    have hq : q.pen_down = p := hrun q (List.mem_cons_self _ _)
    have hne : ¬ (p = s.prev_pen_state) := fun e => hprev e.symm
    have hstep : (generateAndSendGCode q.x q.y q.pen_down s).prev_pen_state = p := by
      simp [generateAndSendGCode, hq, hne]
    have hlink : (generateAndSendGCode q.x q.y q.pen_down s).link
        = s.link ++ [penCommand p, moveCommand q.x q.y p] := by
      simp [generateAndSendGCode, sendCommands, hq, hne]
    rw [emitAll_cons]
    obtain ⟨i1, i2⟩ := emitAll_same_pen qs (generateAndSendGCode q.x q.y q.pen_down s) (by
      intro r hr
      rw [hstep]
      exact hrun r (List.mem_cons_of_mem _ hr))
    refine ⟨?_, by simpa using hlen, by rw [i2, hstep]⟩
    rw [i1, hstep, hlink, penCommand_eq]
    simp [moveCommand_eq]

/-- Witness of C5: three pen-down points after a pen-up state. -/
theorem C5_pen_coalescing_witness :
    (emitAll [⟨1, 2, 1⟩, ⟨3, 4, 1⟩, ⟨5, 6, 1⟩] ⟨0, 0, 0, 0, [], []⟩).link
      = ["S1000\n", "G1 X1 Y2\n", "G1 X3 Y4\n", "G1 X5 Y6\n"] := by
  have h := (C5_pen_coalescing 3 1 [⟨1, 2, 1⟩, ⟨3, 4, 1⟩, ⟨5, 6, 1⟩] ⟨0, 0, 0, 0, [], []⟩
    (by decide) (by decide) (by decide) (by decide)).1
  rw [h]
  decide

/-! ## The layout of one character -/

theorem strokeLoop_eq_emitAll (character : CharacterData) (textHeight : Int) (n i : Nat)
    (s : Plotter) (hb : i + n ≤ MAX_STROKES) :
    strokeLoop character textHeight n i s =
      Outcome.ok (emitAll ((List.range' i n).map
        (strokePoint character textHeight s.current_x s.current_y)) s) := by
  induction n generalizing i s with
  | zero => simp [strokeLoop, emitAll_nil]
  | succ n ih =>
    have hi : i < MAX_STROKES := by omega
    obtain ⟨_, g4, g5, _⟩ := generateAndSendGCode_frame
      (Int.tdiv ((character.strokes i).x * textHeight) FONT_UNIT_SIZE + s.current_x)
      (Int.tdiv ((character.strokes i).y * textHeight) FONT_UNIT_SIZE + s.current_y)
      (character.strokes i).pen_down s
    rw [strokeLoop, if_pos hi]
    simp only []
    rw [ih (i + 1) _ (by omega), g4, g5, List.range'_succ, List.map_cons, emitAll_cons]
    rfl

/-- The state in which the strokes of a glyph of scaled width `w` are drawn: the
wrap happens first when the line budget would be exceeded. -/
theorem drawCharacter_eq (fontData : FontData) (textHeight c : Int) (s : Plotter)
    (hc0 : 0 ≤ c) (hc1 : c < 256)
    (hn0 : (fontData c.toNat).stroke_count ≠ 0)
    (hn1 : (fontData c.toNat).stroke_count ≤ 100) :
    drawCharacter fontData textHeight c s =
      Outcome.ok
        { emitAll ((List.range' 0 (fontData c.toNat).stroke_count.toNat).map
              (strokePoint (fontData c.toNat) textHeight
                (if s.accumulated_width
                      + Int.tdiv ((fontData c.toNat).char_width * textHeight) FONT_UNIT_SIZE
                    > MAX_TEXT_WIDTH then newLine textHeight s else s).current_x
                (if s.accumulated_width
                      + Int.tdiv ((fontData c.toNat).char_width * textHeight) FONT_UNIT_SIZE
                    > MAX_TEXT_WIDTH then newLine textHeight s else s).current_y))
            (if s.accumulated_width
                  + Int.tdiv ((fontData c.toNat).char_width * textHeight) FONT_UNIT_SIZE
                > MAX_TEXT_WIDTH then newLine textHeight s else s) with
          accumulated_width :=
            (if s.accumulated_width
                  + Int.tdiv ((fontData c.toNat).char_width * textHeight) FONT_UNIT_SIZE
                > MAX_TEXT_WIDTH then newLine textHeight s else s).accumulated_width
              + Int.tdiv ((fontData c.toNat).char_width * textHeight) FONT_UNIT_SIZE,
          current_x :=
            (if s.accumulated_width
                  + Int.tdiv ((fontData c.toNat).char_width * textHeight) FONT_UNIT_SIZE
                > MAX_TEXT_WIDTH then newLine textHeight s else s).current_x
              + Int.tdiv ((fontData c.toNat).char_width * textHeight) FONT_UNIT_SIZE } := by
  have hb : 0 + (fontData c.toNat).stroke_count.toNat ≤ MAX_STROKES := by
    unfold MAX_STROKES; omega
  have hin : 0 ≤ c ∧ c < (MAX_CHARACTERS : Int) := ⟨hc0, by unfold MAX_CHARACTERS; omega⟩
  unfold drawCharacter
  simp only []
  rw [if_pos hin, if_neg hn0, strokeLoop_eq_emitAll _ _ _ _ _ hb]
  obtain ⟨e1, e2, e3, _⟩ := emitAll_frame
    ((List.range' 0 (fontData c.toNat).stroke_count.toNat).map
      (strokePoint (fontData c.toNat) textHeight
        (if s.accumulated_width
              + Int.tdiv ((fontData c.toNat).char_width * textHeight) FONT_UNIT_SIZE
            > MAX_TEXT_WIDTH then newLine textHeight s else s).current_x
        (if s.accumulated_width
              + Int.tdiv ((fontData c.toNat).char_width * textHeight) FONT_UNIT_SIZE
            > MAX_TEXT_WIDTH then newLine textHeight s else s).current_y))
    (if s.accumulated_width
          + Int.tdiv ((fontData c.toNat).char_width * textHeight) FONT_UNIT_SIZE
        > MAX_TEXT_WIDTH then newLine textHeight s else s)
  simp only [e1, e3]

theorem processChar_glyph (fontData : FontData) (textHeight c : Int) (s : Plotter)
    (hnl : c ≠ 10) (hcr : c ≠ 13) (hsp : c ≠ 32) :
    processChar fontData textHeight c s = drawCharacter fontData textHeight c s := by
  simp [processChar, hnl, hcr, hsp]

/-- The outcome of the loop body for a character with a glyph, field by field. -/
theorem processChar_glyph_fields (fontData : FontData) (h c : Int) (s : Plotter)
    (hc0 : 0 ≤ c) (hc1 : c < 256) (hnl : c ≠ 10) (hcr : c ≠ 13) (hsp : c ≠ 32)
    (hn0 : (fontData c.toNat).stroke_count ≠ 0)
    (hn1 : (fontData c.toNat).stroke_count ≤ 100) :
    ∃ s2 : Plotter, processChar fontData h c s = Outcome.ok s2
      ∧ s2.calls = s.calls ++ (List.range (fontData c.toNat).stroke_count.toNat).map
          (fun i => (⟨(drawOrigin fontData h c s).1
                        + Int.tdiv (((fontData c.toNat).strokes i).x * h) 18,
                      (drawOrigin fontData h c s).2
                        + Int.tdiv (((fontData c.toNat).strokes i).y * h) 18,
                      ((fontData c.toNat).strokes i).pen_down⟩ : MotionPoint))
      ∧ s2.current_x = (drawOrigin fontData h c s).1
          + Int.tdiv ((fontData c.toNat).char_width * h) 18
      ∧ s2.current_y = (drawOrigin fontData h c s).2
      ∧ s2.accumulated_width =
          (if s.accumulated_width + Int.tdiv ((fontData c.toNat).char_width * h) 18 > 100
            then 0 else s.accumulated_width)
          + Int.tdiv ((fontData c.toNat).char_width * h) 18 := by
  rw [processChar_glyph _ _ _ _ hnl hcr hsp, drawCharacter_eq _ _ _ _ hc0 hc1 hn0 hn1]
  have hmap : ∀ cx cy : Int,
      (List.range' 0 (fontData c.toNat).stroke_count.toNat).map
          (strokePoint (fontData c.toNat) h cx cy)
        = (List.range' 0 (fontData c.toNat).stroke_count.toNat).map
            (fun i => (⟨cx + Int.tdiv (((fontData c.toNat).strokes i).x * h) 18,
                        cy + Int.tdiv (((fontData c.toNat).strokes i).y * h) 18,
                        ((fontData c.toNat).strokes i).pen_down⟩ : MotionPoint)) := by
    intro cx cy
    apply List.map_congr_left
    intro i _
    simp [strokePoint, FONT_UNIT_SIZE, Int.add_comm]
  refine ⟨_, rfl, ?_, ?_, ?_, ?_⟩
  · simp only []
    rw [(emitAll_frame _ _).2.2.2, List.range_eq_range', hmap]
    simp only [drawOrigin, FONT_UNIT_SIZE, MAX_TEXT_WIDTH, gt_iff_lt]
    by_cases hw : 100 < s.accumulated_width + Int.tdiv ((fontData c.toNat).char_width * h) 18
    · simp [hw, newLine]
    · simp [hw]
  · simp only [drawOrigin, FONT_UNIT_SIZE, MAX_TEXT_WIDTH, gt_iff_lt]
    by_cases hw : 100 < s.accumulated_width + Int.tdiv ((fontData c.toNat).char_width * h) 18
    · simp [hw, newLine]
    · simp [hw]
  · simp only []
    rw [(emitAll_frame _ _).2.1]
    simp only [drawOrigin, FONT_UNIT_SIZE, MAX_TEXT_WIDTH, gt_iff_lt]
    by_cases hw : 100 < s.accumulated_width + Int.tdiv ((fontData c.toNat).char_width * h) 18
    · simp [hw, newLine]
    · simp [hw]
  · simp only [FONT_UNIT_SIZE, MAX_TEXT_WIDTH, gt_iff_lt]
    by_cases hw : 100 < s.accumulated_width + Int.tdiv ((fontData c.toNat).char_width * h) 18
    · simp [hw, newLine]
    · simp [hw]

/-- C3: for every height `h` (so for each of 4..10) and a character `c` whose
catalog entry has strokes, the loop body emits one motion point per stroke, in order, and the
point of the stroke `(sx, sy, pen)` is `(cx + sx*h/18, cy + sy*h/18, pen)`, where
`(cx, cy)` is the cursor at which the glyph is drawn and `/` truncates toward
zero (`Int.tdiv`), applied before the cursor is added; afterwards the cursor is
`(cx + width*h/18, cy)`. -/
theorem C3_stroke_scaling (fontData : FontData) (h c : Int) (s : Plotter)
    (hc0 : 0 ≤ c) (hc1 : c < 256) (hnl : c ≠ 10) (hcr : c ≠ 13) (hsp : c ≠ 32)
    (hn0 : (fontData c.toNat).stroke_count ≠ 0)
    (hn1 : (fontData c.toNat).stroke_count ≤ 100) :
    ∃ s2 : Plotter, processChar fontData h c s = Outcome.ok s2
      ∧ s2.calls = s.calls ++ (List.range (fontData c.toNat).stroke_count.toNat).map
          (fun i => (⟨(drawOrigin fontData h c s).1
                        + Int.tdiv (((fontData c.toNat).strokes i).x * h) 18,
                      (drawOrigin fontData h c s).2
                        + Int.tdiv (((fontData c.toNat).strokes i).y * h) 18,
                      ((fontData c.toNat).strokes i).pen_down⟩ : MotionPoint))
      ∧ s2.current_x = (drawOrigin fontData h c s).1
          + Int.tdiv ((fontData c.toNat).char_width * h) 18
      ∧ s2.current_y = (drawOrigin fontData h c s).2 := by
  obtain ⟨s2, e, k1, k2, k3, _⟩ :=
    processChar_glyph_fields fontData h c s hc0 hc1 hnl hcr hsp hn0 hn1
  exact ⟨s2, e, k1, k2, k3⟩

/-- Witness of C3: strokes (-7,-25,down), (9,0,up) at height 5 from the cursor
(3, 4): -35/18 = -1 and -125/18 = -6 (truncated, not floored). -/
theorem C3_stroke_scaling_witness :
    ∃ s2 : Plotter, processChar fontDataNeg 5 66 ⟨3, 4, 0, 0, [], []⟩ = Outcome.ok s2
      ∧ s2.calls = [⟨2, -2, 1⟩, ⟨5, 4, 0⟩] ∧ s2.current_x = 5 ∧ s2.current_y = 4 := by
  obtain ⟨s2, e, k1, k2, k3⟩ := C3_stroke_scaling fontDataNeg 5 66 ⟨3, 4, 0, 0, [], []⟩
    (by decide) (by decide) (by decide) (by decide) (by decide) (by decide) (by decide)
  refine ⟨s2, e, ?_, ?_, ?_⟩
  · rw [k1]; decide
  · rw [k2]; decide
  · rw [k3]; decide

/-- C4: for a character `c` whose catalog entry has strokes and scaled width
`w = width*h/18`, from the state `(x, y, a)`: when `a + w > 100` the wrap comes
first, the points are the scaled strokes translated by `(0, y - (5+h))` and the
state afterwards is `x = w`, `y = y - (5+h)`, accumulated width `w`; when
`a + w <= 100` there is no wrap, the points are translated by `(x, y)` and the
state afterwards is `x + w`, `y`, `a + w`. -/
theorem C4_wrap_before_glyph (fontData : FontData) (h c : Int) (s : Plotter)
    (hc0 : 0 ≤ c) (hc1 : c < 256) (hnl : c ≠ 10) (hcr : c ≠ 13) (hsp : c ≠ 32)
    (hn0 : (fontData c.toNat).stroke_count ≠ 0)
    (hn1 : (fontData c.toNat).stroke_count ≤ 100) :
    ∃ s2 : Plotter, processChar fontData h c s = Outcome.ok s2
      ∧ (s.accumulated_width + Int.tdiv ((fontData c.toNat).char_width * h) 18 > 100 →
          s2.calls = s.calls ++ (List.range (fontData c.toNat).stroke_count.toNat).map
              (fun i => (⟨0 + Int.tdiv (((fontData c.toNat).strokes i).x * h) 18,
                          (s.current_y - (5 + h))
                            + Int.tdiv (((fontData c.toNat).strokes i).y * h) 18,
                          ((fontData c.toNat).strokes i).pen_down⟩ : MotionPoint))
          ∧ s2.current_x = Int.tdiv ((fontData c.toNat).char_width * h) 18
          ∧ s2.current_y = s.current_y - (5 + h)
          ∧ s2.accumulated_width = Int.tdiv ((fontData c.toNat).char_width * h) 18)
      ∧ (s.accumulated_width + Int.tdiv ((fontData c.toNat).char_width * h) 18 ≤ 100 →
          s2.calls = s.calls ++ (List.range (fontData c.toNat).stroke_count.toNat).map
              (fun i => (⟨s.current_x + Int.tdiv (((fontData c.toNat).strokes i).x * h) 18,
                          s.current_y + Int.tdiv (((fontData c.toNat).strokes i).y * h) 18,
                          ((fontData c.toNat).strokes i).pen_down⟩ : MotionPoint))
          ∧ s2.current_x = s.current_x + Int.tdiv ((fontData c.toNat).char_width * h) 18
          ∧ s2.current_y = s.current_y
          ∧ s2.accumulated_width
              = s.accumulated_width + Int.tdiv ((fontData c.toNat).char_width * h) 18) := by
  obtain ⟨s2, e, k1, k2, k3, k4⟩ :=
    processChar_glyph_fields fontData h c s hc0 hc1 hnl hcr hsp hn0 hn1
  refine ⟨s2, e, ?_, ?_⟩
  · intro hw
    have hw2 : 100 < s.accumulated_width + Int.tdiv ((fontData c.toNat).char_width * h) 18 := hw
    simp only [drawOrigin, FONT_UNIT_SIZE, MAX_TEXT_WIDTH, LINE_GAP, gt_iff_lt, hw2, if_true]
      at k1 k2 k3 k4
    exact ⟨k1, by rw [k2]; simp, k3, by rw [k4]; simp⟩
  · intro hw
    have hw2 : ¬ 100 < s.accumulated_width + Int.tdiv ((fontData c.toNat).char_width * h) 18 := by
      omega
    simp only [drawOrigin, FONT_UNIT_SIZE, MAX_TEXT_WIDTH, LINE_GAP, gt_iff_lt, hw2, if_false]
      at k1 k2 k3 k4
    exact ⟨k1, k2, k3, k4⟩

/-- Witness of C4: the glyph of scaled width 5 at height 9. From the accumulated
width 95 (95 + 5 = 100) it is drawn on the same line; from 96 (96 + 5 = 101)
the wrap comes first. -/
theorem C4_wrap_before_glyph_witness :
    (∃ s2 : Plotter, processChar fontDataA 9 65 ⟨95, 0, 0, 95, [], []⟩ = Outcome.ok s2
        ∧ s2.calls = [⟨95, 0, 0⟩, ⟨100, 10, 1⟩, ⟨100, 0, 0⟩]
        ∧ s2.current_x = 100 ∧ s2.current_y = 0 ∧ s2.accumulated_width = 100)
    ∧ (∃ s2 : Plotter, processChar fontDataA 9 65 ⟨96, 0, 0, 96, [], []⟩ = Outcome.ok s2
        ∧ s2.calls = [⟨0, -14, 0⟩, ⟨5, -4, 1⟩, ⟨5, -14, 0⟩]
        ∧ s2.current_x = 5 ∧ s2.current_y = -14 ∧ s2.accumulated_width = 5) := by
  constructor
  · obtain ⟨s2, e, _, k⟩ := C4_wrap_before_glyph fontDataA 9 65 ⟨95, 0, 0, 95, [], []⟩
      (by decide) (by decide) (by decide) (by decide) (by decide) (by decide) (by decide)
    obtain ⟨k1, k2, k3, k4⟩ := k (by decide)
    refine ⟨s2, e, ?_, ?_, ?_, ?_⟩
    · rw [k1]; decide
    · rw [k2]; decide
    · rw [k3]
    · rw [k4]; decide
  · obtain ⟨s2, e, k, _⟩ := C4_wrap_before_glyph fontDataA 9 65 ⟨96, 0, 0, 96, [], []⟩
      (by decide) (by decide) (by decide) (by decide) (by decide) (by decide) (by decide)
    obtain ⟨k1, k2, k3, k4⟩ := k (by decide)
    refine ⟨s2, e, ?_, ?_, ?_, ?_⟩
    · rw [k1]; decide
    · rw [k2]; decide
    · rw [k3]; decide
    · rw [k4]; decide

/-- C8: a space emits no motion point and no line. With `sw = 10*h/18` (truncated),
from the state `(x, y, a)`: when `a + sw <= 100` the state becomes
`(x + sw, y, a + sw)`; when `a + sw > 100` it becomes `(0, y - (5+h), 0)`, the
advance of the space being dropped by the wrap that follows it. -/
theorem C8_space (fontData : FontData) (h : Int) (s : Plotter) :
    processChar fontData h 32 s =
      Outcome.ok
        (if s.accumulated_width + Int.tdiv (10 * h) 18 ≤ 100 then
          { s with current_x := s.current_x + Int.tdiv (10 * h) 18,
                   accumulated_width := s.accumulated_width + Int.tdiv (10 * h) 18 }
        else
          { s with current_x := 0, current_y := s.current_y - (5 + h),
                   accumulated_width := 0 }) := by
  simp only [processChar, spaceCharacter, newLine, SPACE_GAP, FONT_UNIT_SIZE, MAX_TEXT_WIDTH,
    LINE_GAP, gt_iff_lt]
  by_cases hw : s.accumulated_width + Int.tdiv (10 * h) 18 ≤ 100
  · have hw2 : ¬ 100 < s.accumulated_width + Int.tdiv (10 * h) 18 := by omega
    simp [hw, hw2]
  · have hw2 : 100 < s.accumulated_width + Int.tdiv (10 * h) 18 := by omega
    simp [hw, hw2]

/-! ## The font catalog -/

theorem toChar_65 : toChar 65 = 65 := by decide

/-- The record of `fontFileA` is stored in entry 0 of the array, whatever the array
held before. -/
theorem loadFontData_fontFileA (m : FontData) (junk : Indeterminate) :
    loadFontData fontFileA m junk = Outcome.ok (0, Function.update m 0
      ⟨65, 3, Function.update (Function.update (Function.update (m 0).strokes 0 ⟨0, 0, 0⟩)
        1 ⟨10, 20, 1⟩) 2 ⟨10, 0, 0⟩, 10⟩) := by
  simp [loadFontData, fontFileA, loadLoop, readRecord, readStrokes, scanInt, MAX_CHARACTERS,
    MAX_STROKES, storeStroke]

/-- Two records, codes 66 and 65 in that order, are stored in entries 0 and 1. -/
theorem loadFontData_two_records (m : FontData) (junk : Indeterminate) :
    loadFontData [999, 66, 1, 7, 0, 0, 999, 65, 2, 1, 2, 1, 3, 0, 0] m junk = Outcome.ok (0,
      Function.update (Function.update m 0 ⟨66, 1, Function.update (m 0).strokes 0 ⟨7, 0, 0⟩, 7⟩) 1
        ⟨65, 2, Function.update (Function.update (m 1).strokes 0 ⟨1, 2, 1⟩) 1 ⟨3, 0, 0⟩, 3⟩) := by
  simp [loadFontData, loadLoop, readRecord, readStrokes, scanInt, MAX_CHARACTERS, MAX_STROKES,
    storeStroke]

/-- C1 (the code departs from the claim): after loading the font file with the
single record of code 65, the text "A" at height 9 is laid out from entry 65 of
the array, which the load did not write: the outcome is the one obtained
without loading anything. With an array that held zeros no line is
transmitted. The five lines of the claim are what the byte 0 produces, since
the record was stored in entry 0. -/
theorem C1_end_to_end_reads_unwritten_entry :
    (∀ (m : FontData) (junk : Indeterminate),
        loadAndProcess fontFileA m junk [65] 9 []
          = processTextandCalculateWidth [65] m 9 0 0 0 [])
    ∧ loadAndProcess fontFileA zeroFontData zeroJunk [65] 9 []
        = Outcome.ok ⟨0, 0, 0, 0, [], []⟩
    ∧ loadAndProcess fontFileA zeroFontData zeroJunk [0] 9 []
        = Outcome.ok ⟨5, 0, 0, 5, [⟨0, 0, 0⟩, ⟨5, 10, 1⟩, ⟨5, 0, 0⟩],
            ["G0 X0 Y0\n", "S1000\n", "G1 X5 Y10\n", "S0\n", "G0 X5 Y0\n"]⟩ := by
  refine ⟨?_, by decide, by decide⟩
  intro m junk
  rw [loadAndProcess, loadFontData_fontFileA]
  simp [processTextandCalculateWidth, processLoop, processChar, drawCharacter, toChar_65, EOF,
    MAX_CHARACTERS]

/-- C2 (the code departs from the claim): records are stored by position in the
file, not by code. After loading a record of code 66 followed by a record of
code 65, entries 65 and 66 of the array are what they were before the load,
entry 0 holds the record of code 66 and entry 1 the record of code 65. -/
theorem C2_records_stored_by_position (m : FontData) (junk : Indeterminate) :
    ∃ fd : FontData,
      loadFontData [999, 66, 1, 7, 0, 0, 999, 65, 2, 1, 2, 1, 3, 0, 0] m junk = Outcome.ok (0, fd)
      ∧ fd 65 = m 65 ∧ fd 66 = m 66
      ∧ (fd 0).ascii_char = 66 ∧ (fd 0).stroke_count = 1 ∧ (fd 0).strokes 0 = ⟨7, 0, 0⟩
      ∧ (fd 1).ascii_char = 65 ∧ (fd 1).stroke_count = 2
      ∧ (fd 1).strokes 0 = ⟨1, 2, 1⟩ ∧ (fd 1).strokes 1 = ⟨3, 0, 0⟩ := by
  refine ⟨_, loadFontData_two_records m junk, ?_⟩
  simp

theorem scanInt_length (input : List Int) (old : Int) :
    (scanInt input old).2.length ≤ input.length := by
  cases input <;> simp [scanInt]

theorem readStrokes_ne_outOfFuel (n i : Nat) (s : Loader) :
    readStrokes n i s ≠ Outcome.outOfFuel := by
  induction n generalizing i s with
  | zero => simp [readStrokes]
  | succ n ih =>
    rw [readStrokes]
    split_ifs
    · exact ih _ _
    · simp

theorem readStrokes_input (n i : Nat) (s s2 : Loader) (h : readStrokes n i s = Outcome.ok s2) :
    s2.input.length ≤ s.input.length ∧ s2.index = s.index
      ∧ s2.stroke_count = s.stroke_count := by
  induction n generalizing i s with
  | zero =>
    simp [readStrokes] at h
    subst h
    simp
  | succ n ih =>
    rw [readStrokes] at h
    split_ifs at h
    obtain ⟨k1, k2, k3⟩ := ih _ _ h
    refine ⟨?_, k2, k3⟩
    have a1 := scanInt_length s.input s.x
    have a2 := scanInt_length (scanInt s.input s.x).2 s.y
    have a3 := scanInt_length (scanInt (scanInt s.input s.x).2 s.y).2 s.pen_down
    simp only [] at k1
    omega

theorem readRecord_ne_outOfFuel (s : Loader) : readRecord s ≠ Outcome.outOfFuel := by
  unfold readRecord
  simp only []
  split_ifs
  · split
    · split_ifs <;> simp
    · simp
    · rename_i heq
      exact absurd heq (readStrokes_ne_outOfFuel _ _ _)
  · simp

theorem readRecord_input (s s2 : Loader) (h : readRecord s = Outcome.ok s2) :
    s2.input.length ≤ s.input.length := by
  unfold readRecord at h
  simp only [] at h
  split_ifs at h
  split at h
  · rename_i s3 heq
    split_ifs at h
    simp only [Outcome.ok.injEq] at h
    subst h
    have k := (readStrokes_input _ _ _ _ heq).1
    have a1 := scanInt_length s.input s.ascii_code
    have a2 := scanInt_length (scanInt s.input s.ascii_code).2 s.stroke_count
    simp only [] at k ⊢
    omega
  · simp at h
  · simp at h

/-- One more iteration than there are integers left is enough for the loop. -/
theorem loadLoop_ne_outOfFuel (fuel : Nat) (s : Loader) (h : s.input.length < fuel) :
    loadLoop fuel s ≠ Outcome.outOfFuel := by
  induction fuel generalizing s with
  | zero => omega
  | succ fuel ih =>
    rw [loadLoop]
    split
    · simp
    · rename_i t rest hin
      have hlen : rest.length < fuel := by
        rw [hin] at h
        simp at h
        omega
      split_ifs
      · split
        · rename_i s1 heq
          apply ih
          have := readRecord_input _ _ heq
          simp only [] at this
          omega
        · simp
        · rename_i heq
          exact absurd heq (readRecord_ne_outOfFuel _)
      · apply ih
        exact hlen

theorem scanInt_rest (input : List Int) (old : Int) : (scanInt input old).2 = input.drop 1 := by
  cases input <;> simp [scanInt]

/-- Within the bounds of both arrays the stroke loop of the load runs to its end:
it consumes three integers per stroke (fewer at the end of the file) and writes
only the strokes of entry `index`. -/
theorem readStrokes_ok (n i : Nat) (s : Loader) (hi : i + n ≤ MAX_STROKES)
    (hx : s.index < MAX_CHARACTERS) :
    ∃ s2 : Loader, readStrokes n i s = Outcome.ok s2
      ∧ s2.input = s.input.drop (3 * n) ∧ s2.index = s.index
      ∧ s2.stroke_count = s.stroke_count
      ∧ (∀ j, j ≠ s.index → s2.fontData j = s.fontData j)
      ∧ (s2.fontData s.index).ascii_char = (s.fontData s.index).ascii_char
      ∧ (s2.fontData s.index).stroke_count = (s.fontData s.index).stroke_count := by
  induction n generalizing i s with
  | zero => exact ⟨s, by simp [readStrokes]⟩
  | succ n ih =>
    have hc : s.index < MAX_CHARACTERS ∧ i < MAX_STROKES := ⟨hx, by omega⟩
    rw [readStrokes, if_pos hc]
    obtain ⟨s2, e, k1, k2, k3, k4, k5, k6⟩ := ih (i + 1)
      { s with input := (scanInt (scanInt (scanInt s.input s.x).2 s.y).2 s.pen_down).2,
               x := (scanInt s.input s.x).1, y := (scanInt (scanInt s.input s.x).2 s.y).1,
               pen_down := (scanInt (scanInt (scanInt s.input s.x).2 s.y).2 s.pen_down).1,
               fontData := storeStroke s.fontData s.index i
                 ⟨(scanInt s.input s.x).1, (scanInt (scanInt s.input s.x).2 s.y).1,
                  (scanInt (scanInt (scanInt s.input s.x).2 s.y).2 s.pen_down).1⟩ }
      (by omega) hx
    refine ⟨s2, e, ?_, k2, k3, ?_, ?_, ?_⟩
    · rw [k1]
      simp only [scanInt_rest, List.drop_drop]
      congr 1
      omega
    · intro j hj
      rw [k4 j hj]
      simp [storeStroke, Function.update_noteq hj]
    · rw [k5]
      simp [storeStroke]
    · rw [k6]
      simp [storeStroke]

/-- C10 (counterexample): a record that declares 3 strokes and is followed by 2
triples before the end of the file is loaded; `loadFontData` returns 0 and the
third stroke is a copy of the second. -/
theorem C10_short_record_is_loaded :
    ∃ fd : FontData,
      loadFontData [999, 65, 3, 0, 0, 0, 10, 20, 1] zeroFontData zeroJunk = Outcome.ok (0, fd)
      ∧ (fd 0).ascii_char = 65 ∧ (fd 0).stroke_count = 3
      ∧ (fd 0).strokes 0 = ⟨0, 0, 0⟩ ∧ (fd 0).strokes 1 = ⟨10, 20, 1⟩
      ∧ (fd 0).strokes 2 = ⟨10, 20, 1⟩ ∧ (fd 0).char_width = 10 := by
  refine ⟨Function.update zeroFontData 0
    ⟨65, 3, Function.update (Function.update (Function.update (zeroFontData 0).strokes 0
      ⟨0, 0, 0⟩) 1 ⟨10, 20, 1⟩) 2 ⟨10, 20, 1⟩, 10⟩, ?_, ?_⟩
  · simp [loadFontData, loadLoop, readRecord, readStrokes, scanInt, MAX_CHARACTERS, MAX_STROKES,
      storeStroke, zeroJunk]
  · simp

/-- C10 (amended): `loadFontData` never reports a failure. For every font file, if
no array is overrun the function returns 0 together with the array; and a file
made of one record that declares `n` strokes (`1 <= n <= 100`) followed by fewer
than `3*n` integers is loaded in this way: the function returns 0 and entry 0
carries the declared code and stroke count. -/
theorem C10_loadFontData_never_reports_failure :
    (∀ (fontFile : List Int) (m : FontData) (junk : Indeterminate),
        loadFontData fontFile m junk = Outcome.undefinedBehaviour
          ∨ ∃ fd : FontData, loadFontData fontFile m junk = Outcome.ok (0, fd))
    ∧ (∀ (code n : Int) (rest : List Int) (m : FontData) (junk : Indeterminate),
        1 ≤ n → n ≤ 100 → (rest.length : Int) < 3 * n →
        ∃ fd : FontData, loadFontData (999 :: code :: n :: rest) m junk = Outcome.ok (0, fd)
          ∧ (fd 0).ascii_char = code ∧ (fd 0).stroke_count = n) := by
  constructor
  · intro fontFile m junk
    unfold loadFontData
    split
    · exact Or.inr ⟨_, rfl⟩
    · exact Or.inl rfl
    · rename_i heq
      exact absurd heq (loadLoop_ne_outOfFuel _ _ (by simp))
  · intro code n rest m junk h1 h100 hlen
    obtain ⟨s2, e, k1, k2, k3, _, k5, k6⟩ := readStrokes_ok n.toNat 0
      { input := rest, ascii_code := code, stroke_count := n, x := junk.x, y := junk.y,
        pen_down := junk.pen_down, index := 0,
        fontData := Function.update m 0 { m 0 with ascii_char := code, stroke_count := n } }
      (by unfold MAX_STROKES; omega) (by unfold MAX_CHARACTERS; simp)
    have hin : s2.input = [] := by
      rw [k1]
      apply List.drop_eq_nil_of_le
      simp only []
      omega
    have hcnt : 0 ≤ s2.stroke_count - 1 ∧ s2.stroke_count - 1 < (MAX_STROKES : Int) := by
      rw [k3]
      unfold MAX_STROKES
      simp only []
      omega
    simp only [] at k2 k5 k6
    refine ⟨Function.update s2.fontData s2.index
      { s2.fontData s2.index with
        char_width := ((s2.fontData s2.index).strokes (s2.stroke_count - 1).toNat).x }, ?_, ?_, ?_⟩
    · simp only [loadFontData, List.length_cons, loadLoop, if_true, readRecord, scanInt,
        MAX_CHARACTERS, Nat.zero_lt_succ]
      rw [e]
      simp only [hcnt, and_self, if_true]
      simp [hin]
    · rw [k2]
      simp only [Function.update_same]
      rw [k5]
      simp
    · rw [k2]
      simp only [Function.update_same]
      rw [k6]
      simp

/-- Witness of C10: the record of the counterexample, 3 strokes declared and 6
integers present. -/
theorem C10_loadFontData_never_reports_failure_witness :
    ∃ fd : FontData,
      loadFontData [999, 65, 3, 0, 0, 0, 10, 20, 1] zeroFontData zeroJunk = Outcome.ok (0, fd)
      ∧ (fd 0).ascii_char = 65 ∧ (fd 0).stroke_count = 3 :=
  C10_loadFontData_never_reports_failure.2 65 3 [0, 0, 0, 10, 20, 1] zeroFontData zeroJunk
    (by decide) (by decide) (by decide)

/-! ## Whole texts -/

theorem toChar_lt (b : Fin 256) : toChar b < 256 := by
  unfold toChar
  have := b.isLt
  split_ifs <;> omega

theorem processChar_skipped (fontData : FontData) (h : Int) (b : Fin 256) (s : Plotter)
    (hb : skipped fontData b = true) :
    toChar b ≠ EOF ∧ processChar fontData h (toChar b) s = Outcome.ok s := by
  simp only [skipped, Bool.or_eq_true, Bool.and_eq_true, decide_eq_true_eq] at hb
  rcases hb with h13 | ⟨⟨⟨h10, h32⟩, h0⟩, hz⟩
  · constructor
    · rw [h13]; decide
    · simp [processChar, h13]
  · constructor
    · unfold EOF; omega
    · by_cases h13 : toChar b = 13
      · simp [processChar, h13]
      · have hin : 0 ≤ toChar b ∧ toChar b < (MAX_CHARACTERS : Int) :=
          ⟨h0, by have := toChar_lt b; unfold MAX_CHARACTERS; omega⟩
        simp [processChar, h10, h13, h32, drawCharacter, hin, hz]

theorem processLoop_filter_skipped (fontData : FontData) (h : Int) (text : List (Fin 256))
    (s : Plotter) :
    processLoop fontData h (text.filter (fun b => !skipped fontData b)) s
      = processLoop fontData h text s := by
  induction text generalizing s with
  | nil => rfl
  | cons b rest ih =>
    by_cases hb : skipped fontData b = true
    · obtain ⟨k1, k2⟩ := processChar_skipped fontData h b s hb
      rw [List.filter_cons_of_neg (by simp [hb]), ih]
      conv_rhs => rw [processLoop, if_neg k1, k2]
    · rw [List.filter_cons_of_pos (by simp [hb])]
      rw [processLoop, processLoop]
      split_ifs
      · rfl
      · cases processChar fontData h (toChar b) s with
        | ok s1 => exact ih s1
        | undefinedBehaviour => rfl
        | outOfFuel => rfl

/-- C9 (counterexample): with a catalog in which entry 32 has zero strokes, the
text made of one space moves the cursor to x = 5 at height 9, and the text
with that character deleted leaves it at 0. -/
theorem C9_deleting_a_space_changes_the_cursor :
    processTextandCalculateWidth
        (([32] : List (Fin 256)).filter (fun b => !crOrZeroStrokes zeroFontData b))
        zeroFontData 9 0 0 0 []
      = Outcome.ok ⟨0, 0, 0, 0, [], []⟩
    ∧ processTextandCalculateWidth [32] zeroFontData 9 0 0 0 []
      = Outcome.ok ⟨5, 0, 0, 5, [], []⟩ := by
  constructor <;> decide

/-- C9 (amended): deleting from the text every carriage return and every
character other than newline and space, of `char` value 0..127, whose catalog
entry has zero strokes leaves the whole outcome of the layout unchanged: the
motion points, the lines transmitted, and the final cursor, line width and pen
state, for every catalog, height, text and starting state. -/
theorem C9_skipped_characters_can_be_deleted (fontData : FontData) (h : Int)
    (text : List (Fin 256)) (current_x current_y prev_pen_state : Int) (link : List String) :
    processTextandCalculateWidth (text.filter (fun b => !skipped fontData b)) fontData h
        current_x current_y prev_pen_state link
      = processTextandCalculateWidth text fontData h current_x current_y prev_pen_state link := by
  unfold processTextandCalculateWidth
  exact processLoop_filter_skipped fontData h text _

theorem processLoop_append (fontData : FontData) (h : Int) (s t : List (Fin 256))
    (st : Plotter) (hs : ∀ b ∈ s, toChar b ≠ EOF) :
    processLoop fontData h (s ++ t) st =
      (match processLoop fontData h s st with
       | Outcome.ok s1 => processLoop fontData h t s1
       | Outcome.undefinedBehaviour => Outcome.undefinedBehaviour
       | Outcome.outOfFuel => Outcome.outOfFuel) := by
  induction s generalizing st with
  | nil => simp [processLoop]
  | cons b rest ih =>
    have hb : toChar b ≠ EOF := hs b (List.mem_cons_self _ _)
    have hrest : ∀ c ∈ rest, toChar c ≠ EOF := fun c hc => hs c (List.mem_cons_of_mem _ hc)
    rw [List.cons_append, processLoop, processLoop, if_neg hb, if_neg hb]
    cases processChar fontData h (toChar b) st with
    | ok s1 => exact ih s1 hrest
    | undefinedBehaviour => rfl
    | outOfFuel => rfl

theorem processLoop_newline (fontData : FontData) (h : Int) (t : List (Fin 256)) (st : Plotter) :
    processLoop fontData h (10 :: t) st = processLoop fontData h t (newLine h st) := by
  have h10 : toChar 10 = 10 := by decide
  rw [processLoop, h10]
  simp [processChar, EOF]

theorem Shifted_generate (dy : Int) (cs : List MotionPoint) (a b : Plotter) (x y pen : Int)
    (hab : Shifted dy cs a b) :
    Shifted dy cs (generateAndSendGCode (x + a.current_x) (y + a.current_y) pen a)
      (generateAndSendGCode (x + b.current_x) (y + b.current_y) pen b) := by
  obtain ⟨r1, r2, r3, r4⟩ := hab
  obtain ⟨a1, a2, a3, a4⟩ := generateAndSendGCode_frame (x + a.current_x) (y + a.current_y) pen a
  obtain ⟨b1, b2, b3, b4⟩ := generateAndSendGCode_frame (x + b.current_x) (y + b.current_y) pen b
  refine ⟨by rw [b2, a2, r1], by rw [b3, a3, r2], by rw [b4, a4, r3], ?_⟩
  rw [b1, a1, r4, r1, r2]
  simp [shiftY, Int.add_assoc]

theorem Shifted_strokeLoop (character : CharacterData) (h dy : Int) (cs : List MotionPoint)
    (n i : Nat) (a b a2 : Plotter) (hab : Shifted dy cs a b)
    (ha : strokeLoop character h n i a = Outcome.ok a2) :
    ∃ b2 : Plotter, strokeLoop character h n i b = Outcome.ok b2 ∧ Shifted dy cs a2 b2 := by
  induction n generalizing i a b with
  | zero =>
    simp only [strokeLoop, Outcome.ok.injEq] at ha
    subst ha
    exact ⟨b, rfl, hab⟩
  | succ n ih =>
    rw [strokeLoop] at ha
    rw [strokeLoop]
    split_ifs at ha ⊢
    exact ih _ _ _ (Shifted_generate dy cs a b _ _ _ hab) ha

theorem Shifted_newLine (h dy : Int) (cs : List MotionPoint) (a b : Plotter)
    (hab : Shifted dy cs a b) : Shifted dy cs (newLine h a) (newLine h b) := by
  obtain ⟨r1, r2, r3, r4⟩ := hab
  refine ⟨rfl, ?_, rfl, r4⟩
  simp only [newLine, r2]
  omega

theorem Shifted_spaceCharacter (h dy : Int) (cs : List MotionPoint) (a b : Plotter)
    (hab : Shifted dy cs a b) : Shifted dy cs (spaceCharacter h a) (spaceCharacter h b) := by
  obtain ⟨r1, r2, r3, r4⟩ := hab
  unfold spaceCharacter newLine Shifted
  simp only [r1, r2, r3, r4]
  split_ifs
  · exact ⟨rfl, by simp only []; omega, rfl, rfl⟩
  · exact ⟨rfl, rfl, rfl, rfl⟩

theorem Shifted_drawCharacter (fontData : FontData) (h dy c : Int) (cs : List MotionPoint)
    (a b a2 : Plotter) (hab : Shifted dy cs a b)
    (ha : drawCharacter fontData h c a = Outcome.ok a2) :
    ∃ b2 : Plotter, drawCharacter fontData h c b = Outcome.ok b2 ∧ Shifted dy cs a2 b2 := by
  have hw : b.accumulated_width = a.accumulated_width := hab.2.2.1
  unfold drawCharacter at ha ⊢
  simp only [hw] at ha ⊢
  split_ifs at ha ⊢ with hin hz hwrap
  · simp only [Outcome.ok.injEq] at ha
    subst ha
    exact ⟨_, rfl, hab⟩
  · split at ha
    · rename_i a3 ea
      obtain ⟨b3, eb, r1, r2, r3, r4⟩ := Shifted_strokeLoop _ h dy cs _ 0 _ _ a3
        (Shifted_newLine h dy cs a b hab) ea
      rw [eb]
      simp only [Outcome.ok.injEq] at ha
      subst ha
      exact ⟨_, rfl, by simp [r1], r2, by simp [r3], r4⟩
    · simp at ha
    · simp at ha
  · split at ha
    · rename_i a3 ea
      obtain ⟨b3, eb, r1, r2, r3, r4⟩ := Shifted_strokeLoop _ h dy cs _ 0 _ _ a3 hab ea
      rw [eb]
      simp only [Outcome.ok.injEq] at ha
      subst ha
      exact ⟨_, rfl, by simp [r1], r2, by simp [r3], r4⟩
    · simp at ha
    · simp at ha

theorem Shifted_processChar (fontData : FontData) (h dy c : Int) (cs : List MotionPoint)
    (a b a2 : Plotter) (hab : Shifted dy cs a b)
    (ha : processChar fontData h c a = Outcome.ok a2) :
    ∃ b2 : Plotter, processChar fontData h c b = Outcome.ok b2 ∧ Shifted dy cs a2 b2 := by
  unfold processChar at ha ⊢
  split_ifs at ha ⊢
  · simp only [Outcome.ok.injEq] at ha
    subst ha
    exact ⟨_, rfl, Shifted_newLine h dy cs a b hab⟩
  · simp only [Outcome.ok.injEq] at ha
    subst ha
    exact ⟨_, rfl, hab⟩
  · simp only [Outcome.ok.injEq] at ha
    subst ha
    exact ⟨_, rfl, Shifted_spaceCharacter h dy cs a b hab⟩
  · exact Shifted_drawCharacter fontData h dy c cs a b a2 hab ha

theorem Shifted_processLoop (fontData : FontData) (h dy : Int) (cs : List MotionPoint)
    (t : List (Fin 256)) (a b a2 : Plotter) (hab : Shifted dy cs a b)
    (ha : processLoop fontData h t a = Outcome.ok a2) :
    ∃ b2 : Plotter, processLoop fontData h t b = Outcome.ok b2 ∧ Shifted dy cs a2 b2 := by
  induction t generalizing a b with
  | nil =>
    simp only [processLoop, Outcome.ok.injEq] at ha
    subst ha
    exact ⟨b, rfl, hab⟩
  | cons c rest ih =>
    rw [processLoop] at ha ⊢
    split_ifs at ha ⊢
    · simp only [Outcome.ok.injEq] at ha
      subst ha
      exact ⟨b, rfl, hab⟩
    · split at ha
      · rename_i a1 ea
        obtain ⟨b1, eb, hab1⟩ := Shifted_processChar fontData h dy _ cs a b a1 hab ea
        rw [eb]
        exact ih a1 b1 hab1 ha
      · simp at ha
      · simp at ha

/-- The newline rule on whole texts: when the text `s` holds no byte that reads as
`EOF` (no byte 255), the layout of `s ++ "\n" ++ t` from the fresh cursor is the
layout of `s` followed by the layout of `t` from the fresh cursor moved by
`ys - (5 + h)` along y, `ys` being the cursor y after `s`. -/
theorem layout_newline_between_texts (fontData : FontData) (h : Int) (s t : List (Fin 256))
    (ps pt : Plotter) (hs : ∀ b ∈ s, toChar b ≠ EOF)
    (es : processTextandCalculateWidth s fontData h 0 0 0 [] = Outcome.ok ps)
    (et : processTextandCalculateWidth t fontData h 0 0 0 [] = Outcome.ok pt) :
    ∃ p : Plotter,
      processTextandCalculateWidth (s ++ [10] ++ t) fontData h 0 0 0 [] = Outcome.ok p
      ∧ p.calls = ps.calls ++ pt.calls.map (shiftY (ps.current_y - (5 + h)))
      ∧ p.current_x = pt.current_x
      ∧ p.current_y = pt.current_y + (ps.current_y - (5 + h))
      ∧ p.accumulated_width = pt.accumulated_width := by
  unfold processTextandCalculateWidth at es et ⊢
  rw [List.append_assoc, processLoop_append _ _ _ _ _ hs, es]
  simp only [List.singleton_append]
  rw [processLoop_newline]
  have hab : Shifted (ps.current_y - (5 + h)) ps.calls
      { current_x := 0, current_y := 0, prev_pen_state := 0, accumulated_width := 0,
        calls := [], link := [] } (newLine h ps) := by
    refine ⟨rfl, ?_, rfl, by simp [newLine]⟩
    simp [newLine, LINE_GAP]
  obtain ⟨p, ep, r1, r2, r3, r4⟩ := Shifted_processLoop fontData h _ _ t _ _ pt hab et
  exact ⟨p, ep, r4, r1, r2, r3⟩

/-- C7 (the code departs from the claim): with `s` the text made of the byte 255
and `t` = "A" at height 5, the layout of `s ++ "\n" ++ t` stops at the byte 255,
which reads as `EOF` in `char currentChar`: no motion point is emitted and the
cursor stays at (0, 0), although the layout of `t` alone emits three points
and the layout of `s` alone ends at y = 0. -/
theorem C7_layout_stops_at_byte_255 :
    processTextandCalculateWidth ([255] ++ [10] ++ [65]) fontDataA 5 0 0 0 []
      = Outcome.ok ⟨0, 0, 0, 0, [], []⟩
    ∧ processTextandCalculateWidth [255] fontDataA 5 0 0 0 []
      = Outcome.ok ⟨0, 0, 0, 0, [], []⟩
    ∧ processTextandCalculateWidth [65] fontDataA 5 0 0 0 []
      = Outcome.ok ⟨2, 0, 0, 2, [⟨0, 0, 0⟩, ⟨2, 5, 1⟩, ⟨2, 0, 0⟩],
          ["G0 X0 Y0\n", "S1000\n", "G1 X2 Y5\n", "S0\n", "G0 X2 Y0\n"]⟩ := by
  refine ⟨by decide, by decide, by decide⟩

/-- The example of the newline rule: "A\nA" at height 5 draws the second glyph 10
below the first, from x = 0. -/
theorem layout_A_newline_A :
    processTextandCalculateWidth [65, 10, 65] fontDataA 5 0 0 0 []
      = Outcome.ok ⟨2, -10, 0, 2,
          [⟨0, 0, 0⟩, ⟨2, 5, 1⟩, ⟨2, 0, 0⟩, ⟨0, -10, 0⟩, ⟨2, -5, 1⟩, ⟨2, -10, 0⟩],
          ["G0 X0 Y0\n", "S1000\n", "G1 X2 Y5\n", "S0\n", "G0 X2 Y0\n",
           "G0 X0 Y-10\n", "S1000\n", "G1 X2 Y-5\n", "S0\n", "G0 X2 Y-10\n"]⟩ := by
  decide

/-! ## The program: height check -/

theorem setupLines_eq : setupLines = ["\n", "G1 X0 Y0 F1000\n", "M3\n", "S0\n"] := by
  decide

/-- C14: once the port and both files are open and the font is loaded, `main`
calls `processTextandCalculateWidth` exactly when `4 <= h <= 10`. For `h < 4` or
`h > 10` it ends with the status `EXIT_FAILURE`, which is not 0, having sent the
setup lines only and without the call; for `4 <= h <= 10` its outcome is that of
the call, made with the loaded catalog, the height `h`, the cursor (0, 0), the
pen state 0 and the link after the setup lines, and the status is 0. -/
theorem C14_height_validation (font : List Int) (m fd : FontData) (junk : Indeterminate)
    (text : List (Fin 256)) (h : Int)
    (hload : loadFontData font m junk = Outcome.ok (0, fd)) :
    ((h < 4 ∨ h > 10) →
        main true (some font) m junk (some text) h
          = Outcome.ok ⟨EXIT_FAILURE, ["\n", "G1 X0 Y0 F1000\n", "M3\n", "S0\n"], none⟩
        ∧ EXIT_FAILURE ≠ 0)
    ∧ ((4 ≤ h ∧ h ≤ 10) →
        main true (some font) m junk (some text) h
          = (match processTextandCalculateWidth text fd h 0 0 0
                ["\n", "G1 X0 Y0 F1000\n", "M3\n", "S0\n"] with
             | Outcome.ok p => Outcome.ok ⟨0, p.link, some p⟩
             | Outcome.undefinedBehaviour => Outcome.undefinedBehaviour
             | Outcome.outOfFuel => Outcome.outOfFuel)) := by
  constructor
  · intro hh
    refine ⟨?_, by decide⟩
    simp only [main, hload, setupLines_eq]
    simp [hh]
  · intro hh
    have hn : ¬ (h < 4 ∨ h > 10) := by omega
    simp only [main, hload, setupLines_eq]
    simp [hn]

/-- Witness of C14: the font of the example, the text "A"; the height 3 ends the
program with status 1 after the setup lines, the height 4 runs the layout. -/
theorem C14_height_validation_witness :
    main true (some fontFileA) zeroFontData zeroJunk (some [65]) 3
        = Outcome.ok ⟨1, ["\n", "G1 X0 Y0 F1000\n", "M3\n", "S0\n"], none⟩
    ∧ main true (some fontFileA) zeroFontData zeroJunk (some [65]) 4
        = Outcome.ok ⟨0, ["\n", "G1 X0 Y0 F1000\n", "M3\n", "S0\n"],
            some ⟨0, 0, 0, 0, [], ["\n", "G1 X0 Y0 F1000\n", "M3\n", "S0\n"]⟩⟩ := by
  have h3 := (C14_height_validation fontFileA zeroFontData _ zeroJunk [65] 3
    (loadFontData_fontFileA zeroFontData zeroJunk)).1 (by decide)
  have h4 := (C14_height_validation fontFileA zeroFontData _ zeroJunk [65] 4
    (loadFontData_fontFileA zeroFontData zeroJunk)).2 (by decide)
  refine ⟨h3.1, ?_⟩
  rw [h4]
  simp [processTextandCalculateWidth, processLoop, processChar, drawCharacter, toChar_65, EOF,
    MAX_CHARACTERS, zeroFontData]

/-! ## The load of a file made of records -/

theorem loadLoop_fuel (f1 f2 : Nat) (s : Loader) (h1 : s.input.length < f1)
    (h2 : s.input.length < f2) : loadLoop f1 s = loadLoop f2 s := by
  induction f1 generalizing f2 s with
  | zero => omega
  | succ f1 ih =>
    cases f2 with
    | zero => omega
    | succ f2 =>
      rw [loadLoop, loadLoop]
      split
      · rfl
      · rename_i t rest hin
        have hlen : rest.length < f1 ∧ rest.length < f2 := by
          rw [hin] at h1 h2
          simp at h1 h2
          omega
        split_ifs
        · cases hr : readRecord { s with input := rest, ascii_code := t } with
          | ok s1 =>
            have := readRecord_input _ _ hr
            simp only [] at this
            exact ih f2 s1 (by omega) (by omega)
          | undefinedBehaviour => rfl
          | outOfFuel => rfl
        · exact ih f2 _ hlen.1 hlen.2

theorem loadFontData_eq_loadFrom (fontFile : List Int) (m : FontData) (junk : Indeterminate) :
    loadFontData fontFile m junk
      = returned (loadFrom
          { input := fontFile, ascii_code := junk.ascii_code, stroke_count := junk.stroke_count,
            x := junk.x, y := junk.y, pen_down := junk.pen_down, index := 0, fontData := m }) := by
  unfold loadFontData loadFrom returned
  simp only []
  cases loadLoop (fontFile.length + 1)
    { input := fontFile, ascii_code := junk.ascii_code, stroke_count := junk.stroke_count,
      x := junk.x, y := junk.y, pen_down := junk.pen_down, index := 0, fontData := m } <;> rfl

theorem loadFrom_nil (s : Loader) (hin : s.input = []) : loadFrom s = Outcome.ok s.fontData := by
  unfold loadFrom
  rw [loadLoop]
  simp [hin]

theorem loadFrom_noise (s : Loader) (t : Int) (rest : List Int) (hin : s.input = t :: rest)
    (ht : t ≠ 999) : loadFrom s = loadFrom { s with input := rest, ascii_code := t } := by
  unfold loadFrom
  rw [loadLoop]
  simp only [hin, if_neg ht, List.length_cons]

theorem loadFrom_record (s : Loader) (rest : List Int) (hin : s.input = 999 :: rest) :
    loadFrom s =
      (match readRecord { s with input := rest, ascii_code := 999 } with
       | Outcome.ok s1 => loadFrom s1
       | Outcome.undefinedBehaviour => Outcome.undefinedBehaviour
       | Outcome.outOfFuel => Outcome.outOfFuel) := by
  unfold loadFrom
  rw [loadLoop]
  simp only [hin, if_true, List.length_cons]
  cases hr : readRecord { s with input := rest, ascii_code := 999 } with
  | ok s1 =>
    have := readRecord_input _ _ hr
    simp only [] at this ⊢
    rw [loadLoop_fuel (rest.length + 1) (s1.input.length + 1) s1 (by omega) (by omega)]
  | undefinedBehaviour => rfl
  | outOfFuel => rfl

theorem loadFrom_noise_list (noise rest : List Int) (s : Loader)
    (hin : s.input = noise ++ rest) (hn : ∀ t ∈ noise, t ≠ 999) :
    ∃ c : Int, loadFrom s = loadFrom { s with input := rest, ascii_code := c } := by
  induction noise generalizing s with
  | nil =>
    refine ⟨s.ascii_code, ?_⟩
    simp only [List.nil_append] at hin
    rw [← hin]
  | cons t ts ih =>
    rw [loadFrom_noise s t (ts ++ rest) hin (hn t (List.mem_cons_self _ _))]
    exact ih { s with input := ts ++ rest, ascii_code := t } rfl
      (fun u hu => hn u (List.mem_cons_of_mem _ hu))

theorem readStrokes_strokes (sts : List Stroke) (i : Nat) (s : Loader) (rest : List Int)
    (hin : s.input = sts.flatMap strokeInts ++ rest) (hi : i + sts.length ≤ MAX_STROKES)
    (hx : s.index < MAX_CHARACTERS) :
    ∃ s2 : Loader, readStrokes sts.length i s = Outcome.ok s2
      ∧ s2.input = rest ∧ s2.index = s.index ∧ s2.stroke_count = s.stroke_count
      ∧ s2.fontData = Function.update s.fontData s.index
          { s.fontData s.index with
            strokes := writeStrokes (s.fontData s.index).strokes i sts } := by
  induction sts generalizing i s with
  | nil =>
    refine ⟨s, by simp [readStrokes], by simpa using hin, rfl, rfl, ?_⟩
    simp [writeStrokes]
  | cons st sts ih =>
    have hc : s.index < MAX_CHARACTERS ∧ i < MAX_STROKES := ⟨hx, by simp at hi; omega⟩
    have hin2 : s.input = st.x :: st.y :: st.pen_down :: (sts.flatMap strokeInts ++ rest) := by
      rw [hin]
      simp [strokeInts]
    rw [List.length_cons, readStrokes, if_pos hc]
    simp only [hin2, scanInt]
    obtain ⟨s2, e, k1, k2, k3, k4⟩ := ih (i + 1)
      { s with input := sts.flatMap strokeInts ++ rest, x := st.x, y := st.y,
               pen_down := st.pen_down,
               fontData := storeStroke s.fontData s.index i ⟨st.x, st.y, st.pen_down⟩ }
      rfl (by simp at hi ⊢; omega) hx
    refine ⟨s2, e, k1, k2, k3, ?_⟩
    rw [k4]
    simp [storeStroke, writeStrokes]

theorem readStrokes_overflow (n i : Nat) (s : Loader) (hn : 0 < n)
    (hi : MAX_STROKES < i + n) : readStrokes n i s = Outcome.undefinedBehaviour := by
  induction n generalizing i s with
  | zero => omega
  | succ n ih =>
    rw [readStrokes]
    split_ifs with hc
    · exact ih (i + 1) _ (by omega) (by omega)
    · rfl

/-- The body of `if (ascii_code == 999)` on the integers of a well-formed record:
within the bounds of both arrays the record is written to entry `index`. -/
theorem readRecord_recordInts (r : FontRecord) (s : Loader) (rest : List Int)
    (hin : s.input = r.code :: (r.strokes.length : Int) :: (r.strokes.flatMap strokeInts ++ rest))
    (hx : s.index < MAX_CHARACTERS) (h1 : 1 ≤ r.strokes.length)
    (h100 : r.strokes.length ≤ MAX_STROKES) :
    ∃ s2 : Loader, readRecord s = Outcome.ok s2
      ∧ s2.input = rest ∧ s2.index = s.index + 1
      ∧ s2.fontData = storeRecord r s.index s.fontData := by
  obtain ⟨s2, e, k1, k2, k3, k4⟩ := readStrokes_strokes r.strokes 0
    { s with input := r.strokes.flatMap strokeInts ++ rest, ascii_code := r.code,
             stroke_count := (r.strokes.length : Int),
             fontData := Function.update s.fontData s.index
               { s.fontData s.index with ascii_char := r.code,
                                         stroke_count := (r.strokes.length : Int) } }
    rest rfl (by omega) hx
  have hcnt : 0 ≤ s2.stroke_count - 1 ∧ s2.stroke_count - 1 < (MAX_STROKES : Int) := by
    rw [k3]
    simp only []
    omega
  unfold readRecord
  simp only [hin, scanInt, if_pos hx, Int.toNat_ofNat]
  rw [e]
  simp only [if_pos hcnt]
  refine ⟨_, rfl, k1, by simp [k2], ?_⟩
  simp only [k2, k3, k4]
  have hlast : ((r.strokes.length : Int) - 1).toNat = r.strokes.length - 1 := by omega
  simp [storeRecord, hlast]

theorem readRecord_outside (r : FontRecord) (s : Loader) (rest : List Int)
    (hin : s.input = r.code :: (r.strokes.length : Int) :: (r.strokes.flatMap strokeInts ++ rest))
    (hbad : ¬ (s.index < MAX_CHARACTERS ∧ 1 ≤ r.strokes.length
                ∧ r.strokes.length ≤ MAX_STROKES)) :
    readRecord s = Outcome.undefinedBehaviour := by
  unfold readRecord
  simp only [hin, scanInt, Int.toNat_ofNat]
  split_ifs with hx
  · by_cases h0 : r.strokes.length = 0
    · simp [h0, readStrokes]
    · have hbig : MAX_STROKES < 0 + r.strokes.length := by omega
      rw [readStrokes_overflow _ _ _ (by omega) hbig]
  · rfl

/-- The load of a file made of well-formed records with other integers around
them writes the records to the entries `index`, `index + 1`, ... in the order
of the file, whatever the integers that are not 999 and whatever the locals
hold. -/
theorem loadFrom_withNoise (items : List (List Int × FontRecord)) (trailing : List Int)
    (s : Loader) (hin : s.input = withNoise items trailing)
    (hnoise : ∀ it ∈ items, ∀ t ∈ it.1, t ≠ 999) (htrail : ∀ t ∈ trailing, t ≠ 999) :
    loadFrom s = storeRecords (items.map Prod.snd) s.index s.fontData := by
  induction items generalizing s with
  | nil =>
    simp only [withNoise] at hin
    obtain ⟨c, hc⟩ := loadFrom_noise_list trailing [] s (by simpa using hin) htrail
    rw [hc, loadFrom_nil _ rfl]
    rfl
  | cons it items ih =>
    obtain ⟨noise, r⟩ := it
    have hin2 : s.input = noise ++ (999 :: r.code :: (r.strokes.length : Int)
        :: (r.strokes.flatMap strokeInts ++ withNoise items trailing)) := by
      rw [hin]
      simp [withNoise, recordInts]
    obtain ⟨c, hc⟩ := loadFrom_noise_list noise _ s hin2
      (hnoise (noise, r) (List.mem_cons_self _ _))
    rw [hc, loadFrom_record _ _ rfl]
    simp only [List.map_cons, storeRecords]
    by_cases hok : s.index < MAX_CHARACTERS ∧ 1 ≤ r.strokes.length
        ∧ r.strokes.length ≤ MAX_STROKES
    · obtain ⟨s2, e, k1, k2, k3⟩ := readRecord_recordInts r
        { s with input := r.code :: (r.strokes.length : Int)
                   :: (r.strokes.flatMap strokeInts ++ withNoise items trailing),
                 ascii_code := 999 }
        (withNoise items trailing) rfl hok.1 hok.2.1 hok.2.2
      rw [e, if_pos hok]
      simp only []
      rw [ih s2 k1 (fun it hit => hnoise it (List.mem_cons_of_mem _ hit)), k2, k3]
    · rw [readRecord_outside r
        { s with input := r.code :: (r.strokes.length : Int)
                   :: (r.strokes.flatMap strokeInts ++ withNoise items trailing),
                 ascii_code := 999 }
        (withNoise items trailing) rfl hok, if_neg hok]

theorem loadFontData_withNoise (items : List (List Int × FontRecord)) (trailing : List Int)
    (m : FontData) (junk : Indeterminate)
    (hnoise : ∀ it ∈ items, ∀ t ∈ it.1, t ≠ 999) (htrail : ∀ t ∈ trailing, t ≠ 999) :
    loadFontData (withNoise items trailing) m junk
      = returned (storeRecords (items.map Prod.snd) 0 m) := by
  rw [loadFontData_eq_loadFrom, loadFrom_withNoise items trailing _ rfl hnoise htrail]

theorem writeStrokes_outside (sts : List Stroke) (old : Nat → Stroke) (i j : Nat)
    (hj : j < i ∨ i + sts.length ≤ j) : writeStrokes old i sts j = old j := by
  induction sts generalizing old i with
  | nil => rfl
  | cons st sts ih =>
    rw [writeStrokes, ih _ _ (by simp at hj; omega)]
    have hne : j ≠ i := by simp at hj; omega
    exact Function.update_noteq hne _ _

theorem writeStrokes_inside (sts : List Stroke) (old : Nat → Stroke) (i k : Nat)
    (hk : k < sts.length) : writeStrokes old i sts (i + k) = sts.get ⟨k, hk⟩ := by
  induction sts generalizing old i k with
  | nil => simp at hk
  | cons st sts ih =>
    rw [writeStrokes]
    cases k with
    | zero =>
      rw [writeStrokes_outside _ _ _ _ (by omega)]
      simp
    | succ k =>
      have hk2 : k < sts.length := by simpa using hk
      have e : i + (k + 1) = (i + 1) + k := by omega
      rw [e, ih _ _ _ hk2]
      rfl

theorem storeRecord_same (r : FontRecord) (index : Nat) (fontData : FontData) :
    storeRecord r index fontData index
      = ⟨r.code, (r.strokes.length : Int), writeStrokes (fontData index).strokes 0 r.strokes,
         (writeStrokes (fontData index).strokes 0 r.strokes (r.strokes.length - 1)).x⟩ := by
  simp [storeRecord]

theorem storeRecord_other (r : FontRecord) (index j : Nat) (fontData : FontData)
    (hj : j ≠ index) : storeRecord r index fontData j = fontData j := by
  simp [storeRecord, Function.update_noteq hj]

/-- Within the capacity of the arrays the records of a list end up in the entries
`index`, `index + 1`, ... in order, and no other entry is written. -/
theorem storeRecords_ok (rs : List FontRecord) (index : Nat) (m : FontData)
    (hcap : index + rs.length ≤ MAX_CHARACTERS)
    (hwf : ∀ r ∈ rs, 1 ≤ r.strokes.length ∧ r.strokes.length ≤ MAX_STROKES) :
    ∃ fd : FontData, storeRecords rs index m = Outcome.ok fd
      ∧ (∀ j, j < index ∨ index + rs.length ≤ j → fd j = m j)
      ∧ (∀ k (hk : k < rs.length),
          fd (index + k) = storeRecord (rs.get ⟨k, hk⟩) (index + k) m (index + k)) := by
  induction rs generalizing index m with
  | nil => exact ⟨m, rfl, fun _ _ => rfl, fun k hk => absurd hk (by simp)⟩
  | cons r rs ih =>
    have hr := hwf r (List.mem_cons_self _ _)
    have hcond : index < MAX_CHARACTERS ∧ 1 ≤ r.strokes.length
        ∧ r.strokes.length ≤ MAX_STROKES := ⟨by simp at hcap; omega, hr.1, hr.2⟩
    obtain ⟨fd, e, k1, k2⟩ := ih (index + 1) (storeRecord r index m)
      (by simp at hcap ⊢; omega) (fun q hq => hwf q (List.mem_cons_of_mem _ hq))
    refine ⟨fd, by rw [storeRecords, if_pos hcond, e], ?_, ?_⟩
    · intro j hj
      rw [k1 j (by simp at hj; omega), storeRecord_other _ _ _ _ (by simp at hj; omega)]
    · intro k hk
      cases k with
      | zero =>
        rw [Nat.add_zero, k1 index (by omega)]
        rfl
      | succ k =>
        have hk2 : k < rs.length := by simpa using hk
        have e2 : index + (k + 1) = (index + 1) + k := by omega
        rw [e2, k2 k hk2, storeRecord_same, storeRecord_same,
          storeRecord_other _ _ _ _ (by omega)]
        rfl

theorem storeRecords_empty_record (rs : List FontRecord) (index : Nat) (m : FontData)
    (hbad : ∃ r ∈ rs, r.strokes = []) :
    storeRecords rs index m = Outcome.undefinedBehaviour := by
  induction rs generalizing index m with
  | nil => simp at hbad
  | cons r rs ih =>
    rw [storeRecords]
    split_ifs with hcond
    · apply ih
      obtain ⟨q, hq, hq0⟩ := hbad
      rcases List.mem_cons.1 hq with h | h
      · subst h
        rw [hq0] at hcond
        simp at hcond
      · exact ⟨q, h, hq0⟩
    · rfl

/-- A file of records one of which declares 0 strokes: the load reads the slot -1
of `strokes`, whatever surrounds the record. -/
theorem loadFontData_empty_record (items : List (List Int × FontRecord)) (trailing : List Int)
    (m : FontData) (junk : Indeterminate)
    (hnoise : ∀ it ∈ items, ∀ t ∈ it.1, t ≠ 999) (htrail : ∀ t ∈ trailing, t ≠ 999)
    (hbad : ∃ it ∈ items, it.2.strokes = []) :
    loadFontData (withNoise items trailing) m junk = Outcome.undefinedBehaviour := by
  rw [loadFontData_withNoise items trailing m junk hnoise htrail,
    storeRecords_empty_record _ _ _ (by
      obtain ⟨it, hit, h0⟩ := hbad
      exact ⟨it.2, List.mem_map_of_mem _ hit, h0⟩)]
  rfl

/-- C11 (the code departs from the claim): a record that declares 0 strokes makes
`loadFontData` evaluate `fontData[index].strokes[stroke_count - 1].x` with
`stroke_count - 1 = -1`, an access outside the array `strokes`: there is no
guard, and the behaviour of the load is undefined, for every code, every
continuation of the file and every prior content of the array and the locals. -/
theorem C11_zero_stroke_record_reads_slot_minus_one (code : Int) (rest : List Int)
    (m : FontData) (junk : Indeterminate) :
    loadFontData (999 :: code :: 0 :: rest) m junk = Outcome.undefinedBehaviour
    ∧ readRecord { input := code :: 0 :: rest, ascii_code := 999,
                   stroke_count := junk.stroke_count, x := junk.x, y := junk.y,
                   pen_down := junk.pen_down, index := 0, fontData := m }
        = Outcome.undefinedBehaviour := by
  constructor
  · simp [loadFontData, loadLoop, readRecord, readStrokes, scanInt, MAX_CHARACTERS, MAX_STROKES]
  · simp [readRecord, readStrokes, scanInt, MAX_CHARACTERS, MAX_STROKES]

/-- The entries a load of records leaves, field by field: entry `k` holds the
record number `k` of the file. -/
theorem loadFontData_records (items : List (List Int × FontRecord)) (trailing : List Int)
    (m : FontData) (junk : Indeterminate)
    (hnoise : ∀ it ∈ items, ∀ t ∈ it.1, t ≠ 999) (htrail : ∀ t ∈ trailing, t ≠ 999)
    (hcap : items.length ≤ 256)
    (hwf : ∀ it ∈ items, 1 ≤ it.2.strokes.length ∧ it.2.strokes.length ≤ 100) :
    ∃ fd : FontData, loadFontData (withNoise items trailing) m junk = Outcome.ok (0, fd)
      ∧ (∀ j, items.length ≤ j → fd j = m j)
      ∧ (∀ k (hk : k < items.length),
          (fd k).ascii_char = (items[k]).2.code
          ∧ (fd k).stroke_count = ((items[k]).2.strokes.length : Int)
          ∧ (∀ j (hj : j < (items[k]).2.strokes.length),
              (fd k).strokes j = (items[k]).2.strokes[j])
          ∧ (∀ j (hj : j < (items[k]).2.strokes.length), j + 1 = (items[k]).2.strokes.length →
              (fd k).char_width = ((items[k]).2.strokes[j]).x)) := by
  obtain ⟨fd, e, k1, k2⟩ := storeRecords_ok (items.map Prod.snd) 0 m
    (by simp [MAX_CHARACTERS]; omega)
    (by
      intro r hr
      obtain ⟨it, hit, rfl⟩ := List.mem_map.1 hr
      exact hwf it hit)
  refine ⟨fd, ?_, ?_, ?_⟩
  · rw [loadFontData_withNoise items trailing m junk hnoise htrail, e]
    rfl
  · intro j hj
    exact k1 j (Or.inr (by simpa using hj))
  · intro k hk
    have hk2 : k < (items.map Prod.snd).length := by simpa using hk
    have hget : (items.map Prod.snd).get ⟨k, hk2⟩ = (items[k]).2 := by simp
    have hfd := k2 k hk2
    rw [Nat.zero_add, storeRecord_same, hget] at hfd
    rw [hfd]
    refine ⟨rfl, rfl, ?_, ?_⟩
    · intro j hj
      have := writeStrokes_inside (items[k]).2.strokes (m k).strokes 0 j hj
      rw [Nat.zero_add] at this
      simpa using this
    · intro j hj hlast
      have := writeStrokes_inside (items[k]).2.strokes (m k).strokes 0 j hj
      rw [Nat.zero_add] at this
      have hj2 : (items[k]).2.strokes.length - 1 = j := by omega
      simp only [hj2, this]
      simp

/-- C12 (counterexample): a well-formed record of 101 strokes overruns the array
`strokes[100]` of its entry; the behaviour of the load is undefined. -/
theorem C12_record_of_101_strokes_overruns :
    loadFontData (recordInts ⟨65, List.replicate 101 ⟨1, 2, 1⟩⟩) zeroFontData zeroJunk
      = Outcome.undefinedBehaviour := by
  have h := loadFontData_withNoise [([], ⟨65, List.replicate 101 ⟨1, 2, 1⟩⟩)] [] zeroFontData
    zeroJunk (by simp) (by simp)
  simp only [withNoise, List.nil_append, List.append_nil] at h
  rw [h]
  simp [storeRecords, MAX_STROKES, returned]

/-- C12 (amended): for a font file made of at most 256 well-formed records, each of
`n` strokes with `1 <= n <= 100`, with any integers other than 999 around them,
`loadFontData` returns 0 and entry `k` of the array holds the record number `k`
of the file: its code, its stroke count `n`, its `n` strokes in the order of the
file, and a width equal to the x of its last stroke, unscaled. -/
theorem C12_width_is_x_of_last_stroke (items : List (List Int × FontRecord))
    (trailing : List Int) (m : FontData) (junk : Indeterminate)
    (hnoise : ∀ it ∈ items, ∀ t ∈ it.1, t ≠ 999) (htrail : ∀ t ∈ trailing, t ≠ 999)
    (hcap : items.length ≤ 256)
    (hwf : ∀ it ∈ items, 1 ≤ it.2.strokes.length ∧ it.2.strokes.length ≤ 100) :
    ∃ fd : FontData, loadFontData (withNoise items trailing) m junk = Outcome.ok (0, fd)
      ∧ (∀ k (hk : k < items.length),
          (fd k).ascii_char = (items[k]).2.code
          ∧ (fd k).stroke_count = ((items[k]).2.strokes.length : Int)
          ∧ (∀ j (hj : j < (items[k]).2.strokes.length),
              (fd k).strokes j = (items[k]).2.strokes[j])
          ∧ (∀ j (hj : j < (items[k]).2.strokes.length), j + 1 = (items[k]).2.strokes.length →
              (fd k).char_width = ((items[k]).2.strokes[j]).x)) := by
  obtain ⟨fd, e, _, k⟩ := loadFontData_records items trailing m junk hnoise htrail hcap hwf
  exact ⟨fd, e, k⟩

/-- Witness of C12: the file of the end-to-end example, one record of three
strokes; the width stored is 10, the x of the third stroke. -/
theorem C12_width_is_x_of_last_stroke_witness :
    ∃ fd : FontData, loadFontData fontFileA zeroFontData zeroJunk = Outcome.ok (0, fd)
      ∧ (fd 0).ascii_char = 65 ∧ (fd 0).stroke_count = 3
      ∧ (fd 0).strokes 0 = ⟨0, 0, 0⟩ ∧ (fd 0).strokes 1 = ⟨10, 20, 1⟩
      ∧ (fd 0).strokes 2 = ⟨10, 0, 0⟩ ∧ (fd 0).char_width = 10 := by
  obtain ⟨fd, e, k⟩ := C12_width_is_x_of_last_stroke
    [([], ⟨65, [⟨0, 0, 0⟩, ⟨10, 20, 1⟩, ⟨10, 0, 0⟩]⟩)] [] zeroFontData zeroJunk
    (by simp) (by simp) (by simp) (by simp)
  have e2 : withNoise [([], ⟨65, [⟨0, 0, 0⟩, ⟨10, 20, 1⟩, ⟨10, 0, 0⟩]⟩)] [] = fontFileA := by
    decide
  rw [e2] at e
  obtain ⟨a1, a2, a3, a4⟩ := k 0 (by simp)
  refine ⟨fd, e, a1, a2, a3 0 (by simp), a3 1 (by simp), a3 2 (by simp), ?_⟩
  exact a4 2 (by simp) (by simp)

/-- C13 (the code departs from the claim): after loading the file with the single
record of code 65, entry 0 of the array, a code that no record declares, holds
a glyph of 3 strokes, and every other entry, declared or not, holds what the
array held before the load, which nothing initialises. With an array whose
entry 66 held 5 strokes the catalog has 5 strokes for the undeclared code 66. -/
theorem C13_undeclared_codes_are_not_empty :
    (∀ (m : FontData) (junk : Indeterminate),
        ∃ fd : FontData, loadFontData fontFileA m junk = Outcome.ok (0, fd)
          ∧ (fd 0).stroke_count = 3 ∧ ∀ c, c ≠ 0 → fd c = m c)
    ∧ (∃ fd : FontData,
        loadFontData fontFileA (Function.update zeroFontData 66 ⟨66, 5, fun _ => ⟨1, 1, 1⟩, 9⟩)
            zeroJunk = Outcome.ok (0, fd)
          ∧ (fd 66).stroke_count = 5) := by
  constructor
  · intro m junk
    refine ⟨_, loadFontData_fontFileA m junk, by simp, ?_⟩
    intro c hc
    simp [Function.update_noteq hc]
  · refine ⟨_, loadFontData_fontFileA _ zeroJunk, ?_⟩
    simp

/-- C15: for a font file made of well-formed records, the integers other than 999
placed before the first record, between the records and after the last one
leave the outcome of `loadFontData` as it is without them, return value and
array; and when the records fit the arrays (at most 256 records, each of 1 to
100 strokes) the load with those integers returns 0 with the array. -/
theorem C15_noise_is_ignored (items : List (List Int × FontRecord)) (trailing : List Int)
    (m : FontData) (junk : Indeterminate)
    (hnoise : ∀ it ∈ items, ∀ t ∈ it.1, t ≠ 999) (htrail : ∀ t ∈ trailing, t ≠ 999) :
    loadFontData (withNoise items trailing) m junk
        = loadFontData (withNoise (items.map (fun it => ([], it.2))) []) m junk
    ∧ (items.length ≤ 256 →
        (∀ it ∈ items, 1 ≤ it.2.strokes.length ∧ it.2.strokes.length ≤ 100) →
        ∃ fd : FontData, loadFontData (withNoise items trailing) m junk = Outcome.ok (0, fd)) := by
  constructor
  · rw [loadFontData_withNoise items trailing m junk hnoise htrail,
      loadFontData_withNoise (items.map (fun it => ([], it.2))) [] m junk
        (by
          intro it hit
          obtain ⟨a, _, rfl⟩ := List.mem_map.1 hit
          simp)
        (by simp)]
    simp [Function.comp_def]
  · intro hcap hwf
    obtain ⟨fd, e, _⟩ := loadFontData_records items trailing m junk hnoise htrail hcap hwf
    exact ⟨fd, e⟩

/-- Witness of C15: the record of the example with 5 and 7 before it and 1, 2, 3
after it loads as the record alone does. -/
theorem C15_noise_is_ignored_witness :
    loadFontData ([5, 7] ++ fontFileA ++ [1, 2, 3]) zeroFontData zeroJunk
        = loadFontData fontFileA zeroFontData zeroJunk
    ∧ ∃ fd : FontData,
        loadFontData ([5, 7] ++ fontFileA ++ [1, 2, 3]) zeroFontData zeroJunk
          = Outcome.ok (0, fd) := by
  have h := C15_noise_is_ignored [([5, 7], ⟨65, [⟨0, 0, 0⟩, ⟨10, 20, 1⟩, ⟨10, 0, 0⟩]⟩)]
    [1, 2, 3] zeroFontData zeroJunk (by decide) (by decide)
  have e1 : withNoise [([5, 7], ⟨65, [⟨0, 0, 0⟩, ⟨10, 20, 1⟩, ⟨10, 0, 0⟩]⟩)] [1, 2, 3]
      = [5, 7] ++ fontFileA ++ [1, 2, 3] := by decide
  have e2 : withNoise ([([5, 7], (⟨65, [⟨0, 0, 0⟩, ⟨10, 20, 1⟩, ⟨10, 0, 0⟩]⟩ : FontRecord))].map
      (fun it => (([] : List Int), it.2))) [] = fontFileA := by decide
  rw [e1] at h
  exact ⟨h.1.trans (congrArg (fun f => loadFontData f zeroFontData zeroJunk) e2),
    h.2 (by simp) (by simp)⟩

/-! ## Bytes and `char` -/

theorem toChar_sevenBit (b : Fin 256) (hb : b.val < 128) : toChar b = (b.val : Int) := by
  simp [toChar, hb]

theorem toChar_high (b : Fin 256) (hb : 128 ≤ b.val) : toChar b = (b.val : Int) - 256 := by
  have : ¬ b.val < 128 := by omega
  simp [toChar, this]

/-- A byte above 127 other than 255 selects an entry before the start of the array. -/
theorem processLoop_high_byte (fontData : FontData) (h : Int) (b : Fin 256)
    (rest : List (Fin 256)) (s : Plotter) (hb : 128 ≤ b.val) (hb2 : b.val ≠ 255) :
    processLoop fontData h (b :: rest) s = Outcome.undefinedBehaviour := by
  have hlt := b.isLt
  have hc := toChar_high b hb
  have h1 : toChar b ≠ EOF := by rw [hc]; unfold EOF; omega
  have h2 : toChar b ≠ 10 := by rw [hc]; omega
  have h3 : toChar b ≠ 13 := by rw [hc]; omega
  have h4 : toChar b ≠ 32 := by rw [hc]; omega
  have h5 : ¬ (0 ≤ toChar b ∧ toChar b < (MAX_CHARACTERS : Int)) := by rw [hc]; omega
  rw [processLoop, if_neg h1]
  simp [processChar, h2, h3, h4, drawCharacter, h5]

/-- C16 (the code departs from the claim): `char currentChar` holds the bytes above
127 as negative values. The byte 255 reads as -1, which is `EOF`: the loop ends
there, whatever follows (the text made of the byte 255 and "A" emits nothing,
though "A" alone emits three points). The byte 200 reads as -56: the catalog is
indexed at -56, outside the array. -/
theorem C16_bytes_above_127_read_as_negative :
    toChar 255 = EOF ∧ toChar 200 = -56
    ∧ (∀ (fontData : FontData) (h : Int) (rest : List (Fin 256)) (s : Plotter),
        processLoop fontData h (255 :: rest) s = Outcome.ok s)
    ∧ (∀ (fontData : FontData) (h : Int) (rest : List (Fin 256)) (s : Plotter),
        processLoop fontData h (200 :: rest) s = Outcome.undefinedBehaviour)
    ∧ processTextandCalculateWidth [255, 65] fontDataA 9 0 0 0 []
        = Outcome.ok ⟨0, 0, 0, 0, [], []⟩
    ∧ processTextandCalculateWidth [65] fontDataA 9 0 0 0 []
        = Outcome.ok ⟨5, 0, 0, 5, [⟨0, 0, 0⟩, ⟨5, 10, 1⟩, ⟨5, 0, 0⟩],
            ["G0 X0 Y0\n", "S1000\n", "G1 X5 Y10\n", "S0\n", "G0 X5 Y0\n"]⟩ := by
  refine ⟨by decide, by decide, ?_, ?_, by decide, by decide⟩
  · intro fontData h rest s
    have h255 : toChar 255 = EOF := by decide
    rw [processLoop, if_pos h255]
  · intro fontData h rest s
    exact processLoop_high_byte fontData h 200 rest s (by decide) (by decide)

/-! ## One motion point per stroke -/

theorem processChar_sevenBit_points (fontData : FontData) (h : Int) (b : Fin 256) (s : Plotter)
    (hb : b.val < 128) (hcnt : countsInRange fontData) :
    toChar b ≠ EOF ∧ ∃ (s2 : Plotter) (pts : List MotionPoint),
      processChar fontData h (toChar b) s = Outcome.ok s2 ∧ s2.calls = s.calls ++ pts
      ∧ ((b.val = 10 ∨ b.val = 13 ∨ b.val = 32) → pts = [])
      ∧ (¬ (b.val = 10 ∨ b.val = 13 ∨ b.val = 32) →
          pts.map (fun p => p.pen_down) = glyphPens (fontData b.val)
          ∧ (pts.length : Int) = (fontData b.val).stroke_count) := by
  have hc := toChar_sevenBit b hb
  refine ⟨by rw [hc]; unfold EOF; omega, ?_⟩
  rw [hc]
  by_cases h10 : b.val = 10
  · refine ⟨newLine h s, [], by simp [processChar, h10], by simp [newLine], fun _ => rfl, ?_⟩
    intro hn
    exact absurd (Or.inl h10) hn
  by_cases h13 : b.val = 13
  · refine ⟨s, [], by simp [processChar, h13], by simp, fun _ => rfl, ?_⟩
    intro hn
    exact absurd (Or.inr (Or.inl h13)) hn
  by_cases h32 : b.val = 32
  · refine ⟨spaceCharacter h s, [], by simp [processChar, h32], ?_, fun _ => rfl, ?_⟩
    · unfold spaceCharacter newLine
      simp only []
      split_ifs <;> simp
    · intro hn
      exact absurd (Or.inr (Or.inr h32)) hn
  have hi10 : (b.val : Int) ≠ 10 := by omega
  have hi13 : (b.val : Int) ≠ 13 := by omega
  have hi32 : (b.val : Int) ≠ 32 := by omega
  have hnat : ((b.val : Int)).toNat = b.val := by simp
  obtain ⟨hlo, hhi⟩ := hcnt b.val hb
  by_cases hz : (fontData b.val).stroke_count = 0
  · have hin : 0 ≤ (b.val : Int) ∧ (b.val : Int) < (MAX_CHARACTERS : Int) := by
      unfold MAX_CHARACTERS; omega
    refine ⟨s, [], ?_, by simp, fun _ => rfl, ?_⟩
    · simp [processChar, hi10, hi13, hi32, drawCharacter, hin, hz]
    · intro _
      simp [glyphPens, hz]
  · obtain ⟨s2, e, k1, _⟩ := processChar_glyph_fields fontData h (b.val : Int) s (by omega)
      (by omega) hi10 hi13 hi32 (by rw [hnat]; exact hz) (by rw [hnat]; exact hhi)
    rw [hnat] at k1
    refine ⟨s2, _, e, k1, ?_, ?_⟩
    · intro hsp
      rcases hsp with h | h | h
      · exact absurd h h10
      · exact absurd h h13
      · exact absurd h h32
    · intro _
      constructor
      · simp [glyphPens, Function.comp_def]
      · simp only [List.length_map, List.length_range]
        omega

theorem glyphBytes_cons (b : Fin 256) (rest : List (Fin 256)) :
    glyphBytes (b :: rest)
      = if b.val = 10 ∨ b.val = 13 ∨ b.val = 32 then glyphBytes rest
        else b :: glyphBytes rest := by
  unfold glyphBytes
  by_cases hsp : b.val = 10 ∨ b.val = 13 ∨ b.val = 32
  · rw [if_pos hsp, List.filter_cons_of_neg]
    simp only [decide_eq_true_eq]
    omega
  · rw [if_neg hsp, List.filter_cons_of_pos]
    simp only [decide_eq_true_eq]
    omega

/-- On a text of bytes below 128, with stroke counts that fit the array, the loop
runs to the end of the text and emits the strokes of the glyphs, one point per
stroke, in order. -/
theorem processLoop_sevenBit_points (fontData : FontData) (h : Int) (text : List (Fin 256))
    (s : Plotter) (htext : sevenBit text) (hcnt : countsInRange fontData) :
    ∃ (s2 : Plotter) (pts : List MotionPoint),
      processLoop fontData h text s = Outcome.ok s2 ∧ s2.calls = s.calls ++ pts
      ∧ pts.map (fun p => p.pen_down) = claimedPens fontData text
      ∧ (pts.length : Int) = claimedPointCount fontData text := by
  induction text generalizing s with
  | nil => exact ⟨s, [], rfl, by simp, rfl, rfl⟩
  | cons b rest ih =>
    have hb : b.val < 128 := htext b (List.mem_cons_self _ _)
    obtain ⟨hne, s1, pts1, e1, c1, n1, n2⟩ := processChar_sevenBit_points fontData h b s hb hcnt
    obtain ⟨s2, pts2, e2, c2, p2, l2⟩ := ih s1 (fun c hc => htext c (List.mem_cons_of_mem _ hc))
    refine ⟨s2, pts1 ++ pts2, ?_, ?_, ?_, ?_⟩
    · rw [processLoop, if_neg hne, e1]
      exact e2
    · rw [c2, c1, List.append_assoc]
    · unfold claimedPens at p2 ⊢
      rw [glyphBytes_cons]
      by_cases hsp : b.val = 10 ∨ b.val = 13 ∨ b.val = 32
      · rw [if_pos hsp, n1 hsp]
        simpa using p2
      · rw [if_neg hsp, List.map_append, (n2 hsp).1, p2]
        simp
    · unfold claimedPointCount at l2 ⊢
      rw [glyphBytes_cons]
      by_cases hsp : b.val = 10 ∨ b.val = 13 ∨ b.val = 32
      · rw [if_pos hsp, n1 hsp]
        simpa using l2
      · rw [if_neg hsp]
        simp only [List.length_append, List.map_cons, List.sum_cons, Nat.cast_add]
        rw [(n2 hsp).2, l2]

/-- C17 (counterexample): the number of motion points is not the sum of the stroke
counts for a catalog entry with the stroke count -1 (no point, sum -1), nor
for the text made of the byte 255 and "A" (no point, sum 3, the loop ends at
the byte 255); with the stroke count 101 the stroke loop leaves the array. -/
theorem C17_points_differ_from_stroke_counts :
    (processTextandCalculateWidth [65] fontDataMinus 9 0 0 0 []
        = Outcome.ok ⟨-90, 0, 0, -90, [], []⟩
      ∧ claimedPointCount fontDataMinus [65] = -1)
    ∧ (processTextandCalculateWidth [255, 65] fontDataA 9 0 0 0 []
        = Outcome.ok ⟨0, 0, 0, 0, [], []⟩
      ∧ claimedPointCount fontDataA [255, 65] = 3)
    ∧ processTextandCalculateWidth [65] fontData101 9 0 0 0 [] = Outcome.undefinedBehaviour := by
  refine ⟨⟨by decide, by decide⟩, ⟨by decide, by decide⟩, ?_⟩
  simp only [processTextandCalculateWidth, processLoop, toChar_65, EOF]
  decide

/-- C17 (amended): for every catalog whose entries 0..127 have a stroke count
between 0 and 100, every height and every text of bytes below 128, the layout
runs to the end of the text and emits exactly one motion point per glyph
stroke, in order: the number of points is the sum, over the characters that
are not newline, carriage return or space, of the stroke count of the
character's entry, and the pen values of the points are those of the strokes of
these glyphs in text order. -/
theorem C17_one_point_per_stroke (fontData : FontData) (h : Int) (text : List (Fin 256))
    (current_x current_y prev_pen_state : Int) (link : List String)
    (htext : sevenBit text) (hcnt : countsInRange fontData) :
    ∃ p : Plotter,
      processTextandCalculateWidth text fontData h current_x current_y prev_pen_state link
        = Outcome.ok p
      ∧ (p.calls.length : Int) = claimedPointCount fontData text
      ∧ p.calls.map (fun q => q.pen_down) = claimedPens fontData text := by
  obtain ⟨s2, pts, e, c, k1, k2⟩ := processLoop_sevenBit_points fontData h text
    { current_x := current_x, current_y := current_y, prev_pen_state := prev_pen_state,
      accumulated_width := 0, calls := [], link := link } htext hcnt
  refine ⟨s2, e, ?_, ?_⟩
  · rw [c]
    simpa using k2
  · rw [c]
    simpa using k1

/-- Witness of C17: "A", newline, "A" with the glyph of three strokes: six points. -/
theorem C17_one_point_per_stroke_witness :
    ∃ p : Plotter,
      processTextandCalculateWidth [65, 10, 65] fontDataA 9 0 0 0 [] = Outcome.ok p
      ∧ (p.calls.length : Int) = 6
      ∧ p.calls.map (fun q => q.pen_down) = [0, 1, 0, 0, 1, 0] := by
  have hcnt : countsInRange fontDataA := by
    intro c _
    unfold fontDataA glyphA
    split_ifs <;> simp
  have htext : sevenBit [65, 10, 65] := by
    intro b hb
    simp only [List.mem_cons, List.mem_singleton, List.not_mem_nil, or_false] at hb
    rcases hb with rfl | rfl | rfl <;> decide
  obtain ⟨p, e, k1, k2⟩ := C17_one_point_per_stroke fontDataA 9 [65, 10, 65] 0 0 0 []
    htext hcnt
  refine ⟨p, e, ?_, ?_⟩
  · rw [k1]; decide
  · rw [k2]; decide

/-! ## The line budget -/

theorem tdiv_scaled_bounds (a b h : Int) (ha : 0 ≤ a) (hab : a ≤ b) (hh : 0 ≤ h) :
    0 ≤ Int.tdiv (a * h) 18 ∧ Int.tdiv (a * h) 18 ≤ Int.tdiv (b * h) 18 := by
  have h1 : 0 ≤ a * h := Int.mul_nonneg ha hh
  have h2 : a * h ≤ b * h := Int.mul_le_mul_of_nonneg_right hab hh
  have h3 : 0 ≤ b * h := le_trans h1 h2
  rw [Int.tdiv_eq_ediv h1 (by decide), Int.tdiv_eq_ediv h3 (by decide)]
  exact ⟨Int.ediv_nonneg h1 (by decide), Int.ediv_le_ediv (by decide) h2⟩

theorem processChar_withinLine (fontData : FontData) (h : Int) (b : Fin 256) (s : Plotter)
    (hh4 : 4 ≤ h) (hb : b.val < 128) (hcnt : countsInRange fontData)
    (hfit : ∀ c : Nat, c < 128 → fitsLine (fontData c) h) (hs : withinLine s) :
    ∃ s2 : Plotter, processChar fontData h (toChar b) s = Outcome.ok s2 ∧ withinLine s2 := by
  obtain ⟨i1, i2, i3, i4⟩ := hs
  rw [toChar_sevenBit b hb]
  by_cases h10 : b.val = 10
  · exact ⟨newLine h s, by simp [processChar, h10], rfl, le_refl _, by simp [newLine], i4⟩
  by_cases h13 : b.val = 13
  · exact ⟨s, by simp [processChar, h13], i1, i2, i3, i4⟩
  by_cases h32 : b.val = 32
  · refine ⟨spaceCharacter h s, by simp [processChar, h32], ?_⟩
    have hsw : 0 ≤ Int.tdiv (10 * h) 18 := Int.tdiv_nonneg (by omega) (by decide)
    unfold spaceCharacter newLine withinLine
    simp only [SPACE_GAP, FONT_UNIT_SIZE, MAX_TEXT_WIDTH, gt_iff_lt]
    split_ifs with hw
    · exact ⟨rfl, le_refl _, by simp, i4⟩
    · exact ⟨by simp only []; omega, by simp only []; omega, by simp only []; omega, i4⟩
  have hi10 : (b.val : Int) ≠ 10 := by omega
  have hi13 : (b.val : Int) ≠ 13 := by omega
  have hi32 : (b.val : Int) ≠ 32 := by omega
  have hnat : ((b.val : Int)).toNat = b.val := by simp
  obtain ⟨hlo, hhi⟩ := hcnt b.val hb
  by_cases hz : (fontData b.val).stroke_count = 0
  · have hin : 0 ≤ (b.val : Int) ∧ (b.val : Int) < (MAX_CHARACTERS : Int) := by
      unfold MAX_CHARACTERS; omega
    exact ⟨s, by simp [processChar, hi10, hi13, hi32, drawCharacter, hin, hz], i1, i2, i3, i4⟩
  · obtain ⟨s2, e, k1, k2, _, k4⟩ := processChar_glyph_fields fontData h (b.val : Int) s (by omega)
      (by omega) hi10 hi13 hi32 (by rw [hnat]; exact hz) (by rw [hnat]; exact hhi)
    rw [hnat] at k1 k2 k4
    obtain ⟨f1, f2⟩ := hfit b.val hb hz
    have hx0 := f1 0 (by omega)
    have hw0 : 0 ≤ Int.tdiv ((fontData b.val).char_width * h) 18 :=
      (tdiv_scaled_bounds _ _ h (le_trans hx0.1 hx0.2) (le_refl _) (by omega)).1
    have horigin : (drawOrigin fontData h (b.val : Int) s).1
        = if s.accumulated_width + Int.tdiv ((fontData b.val).char_width * h) 18 > 100
          then 0 else s.current_x := by
      unfold drawOrigin
      rw [hnat]
      simp only [FONT_UNIT_SIZE, MAX_TEXT_WIDTH]
      split_ifs <;> rfl
    refine ⟨s2, e, ?_, ?_, ?_, ?_⟩
    · rw [k2, k4, horigin]
      split_ifs <;> omega
    · rw [k2, horigin]
      split_ifs <;> omega
    · rw [k2, horigin]
      split_ifs <;> omega
    · intro p hp
      rw [k1] at hp
      rcases List.mem_append.1 hp with hp | hp
      · exact i4 p hp
      · obtain ⟨i, hi, rfl⟩ := List.mem_map.1 hp
        have hilt : (i : Int) < (fontData b.val).stroke_count := by
          have := List.mem_range.1 hi
          omega
        have hxi := f1 i hilt
        have hb2 := tdiv_scaled_bounds _ _ h hxi.1 hxi.2 (by omega)
        simp only []
        rw [horigin]
        split_ifs <;> omega

theorem processLoop_withinLine (fontData : FontData) (h : Int) (text : List (Fin 256))
    (s : Plotter) (hh4 : 4 ≤ h) (htext : sevenBit text) (hcnt : countsInRange fontData)
    (hfit : ∀ c : Nat, c < 128 → fitsLine (fontData c) h) (hs : withinLine s) :
    ∃ s2 : Plotter, processLoop fontData h text s = Outcome.ok s2 ∧ withinLine s2 := by
  induction text generalizing s with
  | nil => exact ⟨s, rfl, hs⟩
  | cons b rest ih =>
    have hb : b.val < 128 := htext b (List.mem_cons_self _ _)
    have hne : toChar b ≠ EOF := by rw [toChar_sevenBit b hb]; unfold EOF; omega
    obtain ⟨s1, e1, w1⟩ := processChar_withinLine fontData h b s hh4 hb hcnt hfit hs
    obtain ⟨s2, e2, w2⟩ := ih s1 (fun c hc => htext c (List.mem_cons_of_mem _ hc)) w1
    exact ⟨s2, by rw [processLoop, if_neg hne, e1]; exact e2, w2⟩

theorem fitsLine_fontDataA (c : Nat) : fitsLine (fontDataA c) 9 := by
  unfold fitsLine fontDataA glyphA
  split_ifs
  · intro _
    refine ⟨?_, by decide⟩
    intro i hi
    simp only [] at hi ⊢
    have hi3 : i < 3 := by omega
    interval_cases i <;> simp
  · intro hz
    exact absurd rfl hz

theorem fitsLine_fontDataMinus (c : Nat) : fitsLine (fontDataMinus c) 9 := by
  unfold fitsLine fontDataMinus
  split_ifs
  · intro _
    refine ⟨?_, by decide⟩
    intro i hi
    simp only [] at hi
    omega
  · intro hz
    exact absurd rfl hz

/-- C18 (counterexample): both catalogs satisfy the hypothesis of the claim at
height 9. With the entry of stroke count -1 and width -180 the text "A" moves
the cursor to x = -90. With the text made of the byte 200 the catalog is
indexed outside the array. -/
theorem C18_cursor_leaves_the_line_budget :
    ((∀ c : Nat, fitsLine (fontDataMinus c) 9)
      ∧ processTextandCalculateWidth [65] fontDataMinus 9 0 0 0 []
          = Outcome.ok ⟨-90, 0, 0, -90, [], []⟩)
    ∧ ((∀ c : Nat, fitsLine (fontDataA c) 9)
      ∧ processTextandCalculateWidth [200] fontDataA 9 0 0 0 []
          = Outcome.undefinedBehaviour) := by
  refine ⟨⟨fitsLine_fontDataMinus, by decide⟩, ⟨fitsLine_fontDataA, ?_⟩⟩
  exact processLoop_high_byte fontDataA 9 200 [] _ (by decide) (by decide)

/-- C18 (amended): from a cursor with x = 0 and the accumulated width 0, for every
height `h >= 4` (so for 4..10), every text of bytes below 128 and every catalog
whose entries 0..127 have a stroke count between 0 and 100 and, when the stroke
count is not 0, strokes with `0 <= x <= width` and a scaled width
`width*h/18 <= 100`: after each processed character (after every prefix of the
text) the layout has run without fault, the cursor x equals the accumulated
line width and lies in 0..100, and every motion point emitted has its x in
0..100. -/
theorem C18_line_budget (fontData : FontData) (h : Int) (text : List (Fin 256))
    (current_y prev_pen_state : Int) (link : List String) (k : Nat)
    (hh4 : 4 ≤ h) (htext : sevenBit text) (hcnt : countsInRange fontData)
    (hfit : ∀ c : Nat, c < 128 → fitsLine (fontData c) h) :
    ∃ p : Plotter,
      processTextandCalculateWidth (text.take k) fontData h 0 current_y prev_pen_state link
        = Outcome.ok p
      ∧ p.current_x = p.accumulated_width ∧ 0 ≤ p.current_x ∧ p.current_x ≤ 100
      ∧ ∀ q ∈ p.calls, 0 ≤ q.x ∧ q.x ≤ 100 := by
  have hpre : sevenBit (text.take k) := fun b hb => htext b (List.mem_of_mem_take hb)
  obtain ⟨p, e, w⟩ := processLoop_withinLine fontData h (text.take k)
    { current_x := 0, current_y := current_y, prev_pen_state := prev_pen_state,
      accumulated_width := 0, calls := [], link := link } hh4 hpre hcnt hfit
    ⟨rfl, le_refl _, by simp, by simp⟩
  exact ⟨p, e, w⟩

/-- Witness of C18: "A", space, "A" at height 9 with the glyph of width 10. -/
theorem C18_line_budget_witness :
    ∃ p : Plotter,
      processTextandCalculateWidth ([65, 32, 65] : List (Fin 256)) fontDataA 9 0 0 0 []
        = Outcome.ok p
      ∧ p.current_x = p.accumulated_width ∧ 0 ≤ p.current_x ∧ p.current_x ≤ 100
      ∧ ∀ q ∈ p.calls, 0 ≤ q.x ∧ q.x ≤ 100 := by
  have hcnt : countsInRange fontDataA := by
    intro c _
    unfold fontDataA glyphA
    split_ifs <;> simp
  have htext : sevenBit [65, 32, 65] := by
    intro b hb
    simp only [List.mem_cons, List.mem_singleton, List.not_mem_nil, or_false] at hb
    rcases hb with rfl | rfl | rfl <;> decide
  exact C18_line_budget fontDataA 9 [65, 32, 65] 0 0 [] 3 (by decide) htext hcnt
    (fun c _ => fitsLine_fontDataA c)

/-! ## The command stream -/

theorem head2_moveCommand (x y p : Int) :
    head2 (moveCommand x y p) = if p ≠ 0 then ['G', '1'] else ['G', '0'] := by
  rw [moveCommand_eq]
  unfold head2
  split_ifs <;> simp [String.data_append, List.take_append_of_le_length]

theorem isMoveDown_moveCommand (x y p : Int) :
    isMoveDown (moveCommand x y p) = decide (p ≠ 0) := by
  unfold isMoveDown
  rw [head2_moveCommand]
  by_cases hp : p = 0 <;> simp [hp]

theorem isMoveUp_moveCommand (x y p : Int) :
    isMoveUp (moveCommand x y p) = decide (p = 0) := by
  unfold isMoveUp
  rw [head2_moveCommand]
  by_cases hp : p = 0 <;> simp [hp]

theorem isPenLine_moveCommand (x y p : Int) : isPenLine (moveCommand x y p) = false := by
  have h1 : moveCommand x y p ≠ "S1000\n" := by
    intro e
    have := congrArg head2 e
    rw [head2_moveCommand] at this
    split_ifs at this <;> exact absurd this (by decide)
  have h2 : moveCommand x y p ≠ "S0\n" := by
    intro e
    have := congrArg head2 e
    rw [head2_moveCommand] at this
    split_ifs at this <;> exact absurd this (by decide)
  simp [isPenLine, h1, h2]

theorem penCommand_facts (p : Int) :
    isPenLine (penCommand p) = true ∧ isMoveDown (penCommand p) = false
      ∧ isMoveUp (penCommand p) = false := by
  rw [penCommand_eq]
  split_ifs <;> decide

theorem consistent_append (pen prev : String) (A B : List String) :
    consistent pen prev (A ++ B)
      = (consistent pen prev A
          && consistent (track (pen, prev) A).1 (track (pen, prev) A).2 B) := by
  induction A generalizing pen prev with
  | nil => simp [consistent, track]
  | cons l A ih =>
    show consistent pen prev (l :: (A ++ B)) = _
    simp only [consistent]
    rw [ih]
    simp [track, Bool.and_assoc]

theorem track_append (st : String × String) (A B : List String) :
    track st (A ++ B) = track (track st A) B := by
  simp [track, List.foldl_append]

theorem track_single (st : String × String) (l : String) :
    track st [l] = (if isPenLine l then l else st.1, l) := rfl

theorem track_pair (st : String × String) (a b : String) :
    track st [a, b] = (if isPenLine b then b else if isPenLine a then a else st.1, b) := rfl

theorem penCommand_down (p : Int) (hp : p ≠ 0) : penCommand p = "S1000\n" := by
  rw [penCommand_eq, if_pos hp]

theorem penCommand_up : penCommand 0 = "S0\n" := by decide

/-- A move line passes the check after the pen command of its own pen value. -/
theorem consistent_move (prev : String) (x y p : Int) :
    consistent (penCommand p) prev [moveCommand x y p] = true := by
  simp only [consistent, isMoveDown_moveCommand, isMoveUp_moveCommand, isPenLine_moveCommand]
  by_cases h0 : p = 0
  · subst h0
    simp [penCommand_up]
  · simp [h0, penCommand_down p h0]

/-- One call of `generateAndSendGCode` keeps the stream coherent. -/
theorem Coherent_generate (x y p : Int) (s : Plotter) (hs : Coherent s) :
    Coherent (generateAndSendGCode x y p s) := by
  obtain ⟨tail, e, c, t1, t2⟩ := hs
  obtain ⟨f1, f2, f3⟩ := penCommand_facts p
  by_cases hp : p = s.prev_pen_state
  · have hprev2 : (generateAndSendGCode x y p s).prev_pen_state = p := by
      simp [generateAndSendGCode, hp]
    refine ⟨tail ++ [moveCommand x y p], ?_, ?_, ?_, ?_⟩
    · simp [generateAndSendGCode, sendCommands, hp, e]
    · rw [consistent_append, c, t1, ← hp, consistent_move]
      rfl
    · rw [track_append, track_single, isPenLine_moveCommand, hprev2, t1, hp]
      rfl
    · rw [track_append, track_single]
      intro hpen
      rw [isPenLine_moveCommand] at hpen
      exact absurd hpen (by decide)
  · have hprev2 : (generateAndSendGCode x y p s).prev_pen_state = p := by
      simp [generateAndSendGCode, hp]
    refine ⟨tail ++ [penCommand p, moveCommand x y p], ?_, ?_, ?_, ?_⟩
    · simp [generateAndSendGCode, sendCommands, hp, e]
    · have hprev : (track ("S0\n", "S0\n") tail).2 ≠ penCommand p := by
        intro heq
        have hpen : isPenLine (track ("S0\n", "S0\n") tail).2 = true := by rw [heq]; exact f1
        obtain ⟨z1, z2⟩ := t2 hpen
        have hp0 : p ≠ 0 := by rw [z1] at hp; exact hp
        rw [z2, penCommand_down p hp0] at heq
        exact absurd heq (by decide)
      rw [consistent_append, c]
      have hmove := consistent_move (penCommand p) x y p
      simp only [consistent, f1, f2, f3, if_true] at hmove ⊢
      simp only [Bool.and_eq_true, Bool.or_eq_true, Bool.not_eq_true', decide_eq_true_eq,
        Bool.and_true] at hmove
      simp [hprev, hmove]
    · rw [track_append, track_pair, isPenLine_moveCommand, f1, hprev2]
      rfl
    · rw [track_append, track_pair]
      intro hpen
      rw [isPenLine_moveCommand] at hpen
      exact absurd hpen (by decide)

theorem Coherent_congr (s t : Plotter) (hl : t.link = s.link)
    (hp : t.prev_pen_state = s.prev_pen_state) (hs : Coherent s) : Coherent t := by
  unfold Coherent at hs ⊢
  rw [hl, hp]
  exact hs

theorem Coherent_emitAll (pts : List MotionPoint) (s : Plotter) (hs : Coherent s) :
    Coherent (emitAll pts s) := by
  induction pts generalizing s with
  | nil => exact hs
  | cons q pts ih =>
    rw [emitAll_cons]
    exact ih _ (Coherent_generate q.x q.y q.pen_down s hs)

theorem Coherent_strokeLoop (character : CharacterData) (h : Int) (n i : Nat) (s s2 : Plotter)
    (hs : Coherent s) (e : strokeLoop character h n i s = Outcome.ok s2) : Coherent s2 := by
  induction n generalizing i s with
  | zero =>
    simp only [strokeLoop, Outcome.ok.injEq] at e
    subst e
    exact hs
  | succ n ih =>
    rw [strokeLoop] at e
    split_ifs at e
    exact ih _ _ (Coherent_generate _ _ _ s hs) e

theorem Coherent_processChar (fontData : FontData) (h c : Int) (s s2 : Plotter)
    (hs : Coherent s) (e : processChar fontData h c s = Outcome.ok s2) : Coherent s2 := by
  unfold processChar at e
  split_ifs at e
  · simp only [Outcome.ok.injEq] at e
    subst e
    exact Coherent_congr s _ rfl rfl hs
  · simp only [Outcome.ok.injEq] at e
    subst e
    exact hs
  · simp only [Outcome.ok.injEq] at e
    subst e
    refine Coherent_congr s _ ?_ ?_ hs
    · unfold spaceCharacter newLine
      simp only []
      split_ifs <;> rfl
    · unfold spaceCharacter newLine
      simp only []
      split_ifs <;> rfl
  · unfold drawCharacter at e
    simp only [] at e
    split_ifs at e
    · simp only [Outcome.ok.injEq] at e
      subst e
      exact hs
    · split at e
      · rename_i s3 e3
        simp only [Outcome.ok.injEq] at e
        subst e
        exact Coherent_congr s3 _ rfl rfl
          (Coherent_strokeLoop _ h _ 0 (newLine h s) s3
            (Coherent_congr s (newLine h s) rfl rfl hs) e3)
      · simp at e
      · simp at e
    · split at e
      · rename_i s3 e3
        simp only [Outcome.ok.injEq] at e
        subst e
        exact Coherent_congr s3 _ rfl rfl (Coherent_strokeLoop _ h _ 0 _ s3 hs e3)
      · simp at e
      · simp at e

theorem Coherent_processLoop (fontData : FontData) (h : Int) (text : List (Fin 256))
    (s s2 : Plotter) (hs : Coherent s) (e : processLoop fontData h text s = Outcome.ok s2) :
    Coherent s2 := by
  induction text generalizing s with
  | nil =>
    simp only [processLoop, Outcome.ok.injEq] at e
    subst e
    exact hs
  | cons b rest ih =>
    rw [processLoop] at e
    split_ifs at e
    · simp only [Outcome.ok.injEq] at e
      subst e
      exact hs
    · split at e
      · rename_i s1 e1
        exact ih s1 (Coherent_processChar fontData h _ s s1 hs e1) e
      · simp at e
      · simp at e

/-- The state `main` passes to the layout is coherent: nothing follows the setup
lines, whose last line is `S0`, and the pen state is 0. -/
theorem Coherent_start (x y w : Int) (calls : List MotionPoint) :
    Coherent ⟨x, y, 0, w, calls, setupLines⟩ :=
  ⟨[], by simp, rfl, rfl, fun _ => ⟨rfl, rfl⟩⟩

/-- C19 (counterexample): the stream of a run starts with the setup lines, and its
second line, `G1 X0 Y0 F1000`, is a `G1` move that no pen command precedes. When
the first motion point has the pen down, the `S0` of the setup is directly
followed by `S1000`, two pen commands with no move between them. -/
theorem C19_setup_move_precedes_every_pen_command :
    main true (some fontFileA) zeroFontData zeroJunk (some [65]) 9
        = Outcome.ok ⟨0, ["\n", "G1 X0 Y0 F1000\n", "M3\n", "S0\n"],
            some ⟨0, 0, 0, 0, [], ["\n", "G1 X0 Y0 F1000\n", "M3\n", "S0\n"]⟩⟩
    ∧ isMoveDown "G1 X0 Y0 F1000\n" = true
    ∧ (["\n"] : List String).any isPenLine = false
    ∧ (emitAll [⟨1, 2, 1⟩] ⟨0, 0, 0, 0, [], ["\n", "G1 X0 Y0 F1000\n", "M3\n", "S0\n"]⟩).link
        = ["\n", "G1 X0 Y0 F1000\n", "M3\n", "S0\n", "S1000\n", "G1 X1 Y2\n"] := by
  refine ⟨?_, by decide, by decide, by decide⟩
  simp only [main, loadFontData_fontFileA, setupLines_eq]
  simp [processTextandCalculateWidth, processLoop, processChar, drawCharacter, toChar_65, EOF,
    MAX_CHARACTERS, zeroFontData]

/-- C19 (amended): in the command stream of a run, after the four setup lines
(which end in `S0`), every move agrees with the most recently transmitted pen
command, the `S0` of the setup included: each line starting with `G1` has
`S1000` as the most recent pen command, each line starting with `G0` has `S0`,
and no pen command directly follows an identical line. This holds for the
lines `generateAndSendGCode` sends for every sequence of motion points with
any integer pen values, from the pen state 0, and for the stream of every run
of `main` that opened the port and reached its end. -/
theorem C19_moves_agree_with_pen_commands :
    (∀ pts : List MotionPoint, ∃ tail : List String,
        (emitAll pts ⟨0, 0, 0, 0, [], ["\n", "G1 X0 Y0 F1000\n", "M3\n", "S0\n"]⟩).link
          = ["\n", "G1 X0 Y0 F1000\n", "M3\n", "S0\n"] ++ tail
        ∧ consistent "S0\n" "S0\n" tail = true)
    ∧ (∀ (fontFile : Option (List Int)) (m : FontData) (junk : Indeterminate)
        (textFile : Option (List (Fin 256))) (h : Int) (e : Exit),
        main true fontFile m junk textFile h = Outcome.ok e →
        ∃ tail : List String,
          e.link = ["\n", "G1 X0 Y0 F1000\n", "M3\n", "S0\n"] ++ tail
          ∧ consistent "S0\n" "S0\n" tail = true) := by
  constructor
  · intro pts
    obtain ⟨tail, e, c, _⟩ := Coherent_emitAll pts _ (Coherent_start 0 0 0 [])
    rw [setupLines_eq] at e
    exact ⟨tail, e, c⟩
  · intro fontFile m junk textFile h e hrun
    have hsetup : ∃ tail : List String,
        setupLines = ["\n", "G1 X0 Y0 F1000\n", "M3\n", "S0\n"] ++ tail
          ∧ consistent "S0\n" "S0\n" tail = true := ⟨[], by decide, rfl⟩
    unfold main at hrun
    simp only [Bool.true_eq_false, if_false] at hrun
    split at hrun
    · simp only [Outcome.ok.injEq] at hrun
      subst hrun
      exact hsetup
    · split at hrun
      · split at hrun
        · simp only [Outcome.ok.injEq] at hrun
          subst hrun
          exact hsetup
        · split_ifs at hrun
          · simp only [Outcome.ok.injEq] at hrun
            subst hrun
            exact hsetup
          · split at hrun
            · rename_i p ep
              simp only [Outcome.ok.injEq] at hrun
              subst hrun
              obtain ⟨tail, e, c, _⟩ := Coherent_processLoop _ h _ _ p
                (Coherent_start 0 0 0 []) ep
              rw [setupLines_eq] at e
              exact ⟨tail, e, c⟩
            · simp at hrun
            · simp at hrun
      · simp at hrun
      · simp at hrun

/-- Witness of C19: the run that loads the font of the example and lays out the
byte 0, whose glyph has the pen values 0, 1, 0. -/
theorem C19_moves_agree_with_pen_commands_witness :
    ∃ tail : List String,
      ["\n", "G1 X0 Y0 F1000\n", "M3\n", "S0\n",
        "G0 X0 Y0\n", "S1000\n", "G1 X5 Y10\n", "S0\n", "G0 X5 Y0\n"]
        = ["\n", "G1 X0 Y0 F1000\n", "M3\n", "S0\n"] ++ tail
      ∧ consistent "S0\n" "S0\n" tail = true := by
  have hrun : main true (some fontFileA) zeroFontData zeroJunk (some [0]) 9
      = Outcome.ok ⟨0, ["\n", "G1 X0 Y0 F1000\n", "M3\n", "S0\n",
          "G0 X0 Y0\n", "S1000\n", "G1 X5 Y10\n", "S0\n", "G0 X5 Y0\n"],
          some ⟨5, 0, 0, 5, [⟨0, 0, 0⟩, ⟨5, 10, 1⟩, ⟨5, 0, 0⟩],
            ["\n", "G1 X0 Y0 F1000\n", "M3\n", "S0\n",
              "G0 X0 Y0\n", "S1000\n", "G1 X5 Y10\n", "S0\n", "G0 X5 Y0\n"]⟩⟩ := by
    decide
  exact C19_moves_agree_with_pen_commands.2 _ _ _ _ _ _ hrun

end RobotDrawing
